import Mathlib

/-!
# SpectralEvaluation: vector utilities, discrete functions, wavelength calibration

A shallow embedding of `src/src/VectorUtils.cpp` (namespace `VectorUtils`).

* A `double` is modelled by a rational number: every arithmetic operation is exact.
* A `std::vector<double>` is a `List ℚ`; `values.size()` is `values.length`.
* `size_t` subtraction wraps modulo `2 ^ 64` (`sizeSub`), the other index
  computations stay below the vector length and are done in `ℕ`.
* A reference parameter that the function writes (`size_t& idx`, `std::vector<double>& output`)
  is passed in as its value before the call and handed back in the result.
* Where two reference parameters of one call may name the same vector (`Normalize`), the
  call is also modelled on a `Memory` of vectors under their references (`NormalizeRef`).
* An exception is an `Except.error`.
* An unchecked read outside a vector is undefined behaviour: the functions that can do one
  return an `Option`, `none` for the undefined behaviour.

`MathFit` holds `CDiscreteFunction` of `Fit/DiscreteFunction.h`, `novac` the declarations
of `Calibration/WavelengthCalibrationByRansac.h`. The functions declared in that header
have no definition in the sources; they are modelled from the specification.
-/

namespace VectorUtils

/-- The exceptions of `<stdexcept>` that the vector utilities can raise. -/
inductive VecError where
  /-- `std::out_of_range`, thrown by `std::vector::at`. -/
  | outOfRange
  /-- `std::invalid_argument`. -/
  | invalidArgument
  deriving DecidableEq, Repr

/-- Subtraction of two `size_t` values: the result wraps modulo `2 ^ 64`. -/
def sizeSub (a b : ℕ) : ℕ :=
  if b ≤ a then a - b else a + 2 ^ 64 - b

/-- The checked element access `values.at(i)` called with an `int` argument. The argument
is converted to `size_t`, so a negative `i` becomes an index above every vector length
and is rejected like any index `i >= values.size()`. -/
def vectorAt (values : List ℚ) (i : ℤ) : Except VecError ℚ :=
  if 0 ≤ i then
    match values[i.toNat]? with
    | some v => .ok v
    | none => .error .outOfRange
  else .error .outOfRange

/-- `double GetAt(const std::vector<double>& values, double idx)`.
The conversions `(int)std::floor(idx)` and `(int)std::ceil(idx)` are taken exactly
(the integers `⌊idx⌋` and `⌈idx⌉`), like the rest of the arithmetic: they keep the value
of every floor and ceiling below `2 ^ 31`. -/
def GetAt (values : List ℚ) (idx : ℚ) : Except VecError ℚ :=
  if idx < 0 then
    .ok 0
  else if idx > ((sizeSub values.length 1 : ℕ) : ℚ) then
    .ok 0
  else
    -- linear interpolation between floor(idx) and ceil(idx)
    match vectorAt values ⌊idx⌋ with
    | .error e => .error e
    | .ok x1 =>
      match vectorAt values ⌈idx⌉ with
      | .error e => .error e
      | .ok x2 =>
        let alpha := idx - (⌊idx⌋ : ℚ)
        .ok (x1 * (1 - alpha) + x2 * alpha)

/-- The loop `for (size_t ii = ...; ii < values.size(); ++ii)` of `Max(values, idx)`,
entered with the running maximum `m` and its index `idx`. -/
def Max.loop (values : List ℚ) (ii : ℕ) (m : ℚ) (idx : ℕ) : ℚ × ℕ :=
  if h : ii < values.length then
    if values[ii] > m then
      Max.loop values (ii + 1) values[ii] ii
    else
      Max.loop values (ii + 1) m idx
  else
    (m, idx)
termination_by values.length - ii

/-- `double Max(const std::vector<double>& values, size_t& idx)`: the returned value and
the value of `idx` after the call. The argument `_idx` is what `idx` held before the call. -/
def Max (values : List ℚ) (_idx : ℕ) : ℚ × ℕ :=
  let idx := 0
  match values with
  | [] => (0, idx)
  | v0 :: _ => Max.loop values 1 v0 idx

/-- `double Max(const std::vector<double>& values)`. -/
def MaxValue (values : List ℚ) : ℚ :=
  (Max values 0).1

/-- The loop `for (size_t ii = ...; ii < values.size(); ++ii)` of `Min(values, idx)`,
entered with the running minimum `m` and its index `idx`. -/
def Min.loop (values : List ℚ) (ii : ℕ) (m : ℚ) (idx : ℕ) : ℚ × ℕ :=
  if h : ii < values.length then
    if values[ii] < m then
      Min.loop values (ii + 1) values[ii] ii
    else
      Min.loop values (ii + 1) m idx
  else
    (m, idx)
termination_by values.length - ii

/-- `double Min(const std::vector<double>& values, size_t& idx)`: the returned value and
the value of `idx` after the call. The argument `_idx` is what `idx` held before the call. -/
def Min (values : List ℚ) (_idx : ℕ) : ℚ × ℕ :=
  let idx := 0
  match values with
  | [] => (0, idx)
  | v0 :: _ => Min.loop values 1 v0 idx

/-- `double Min(const std::vector<double>& values)`. -/
def MinValue (values : List ℚ) : ℚ :=
  (Min values 0).1

/-- The `std::vector::resize(n)` of a vector of doubles: the first `n` elements are kept
and the vector is filled up with `0.0`. -/
def resize (v : List ℚ) (n : ℕ) : List ℚ :=
  v.take n ++ List.replicate (n - v.length) 0

/-- The loop `for (size_t ii = ...; ii < input.size(); ++ii)` of
`Normalize(input, output)`. -/
def Normalize.loop (input : List ℚ) (minValue maxValue : ℚ) (ii : ℕ) (output : List ℚ) :
    List ℚ :=
  if h : ii < input.length then
    Normalize.loop input minValue maxValue (ii + 1)
      (output.set ii ((input[ii] - minValue) / (maxValue - minValue)))
  else
    output
termination_by input.length - ii

/-- `void Normalize(const std::vector<double>& input, std::vector<double>& output)` on the
values of two distinct vectors: the two vectors after the call, `input` first. The call on
references, which may name one and the same vector, is `NormalizeRef`; the second
component is the output vector of every call (`NormalizeRef_output`). -/
def Normalize (input output : List ℚ) : List ℚ × List ℚ :=
  let output := resize output input.length
  let minValue := MinValue input
  let maxValue := MaxValue input
  (input, Normalize.loop input minValue maxValue 0 output)

/-- The vectors of the caller, each under the reference that names it. Two reference
parameters of one call may name the same vector. -/
abbrev Memory := ℕ → List ℚ

/-- The loop `for (size_t ii = ...; ii < input.size(); ++ii)` of `Normalize(input, output)`
on the references `input` and `output`: every iteration reads `input.size()` and
`input[ii]` from the memory as it is then, and writes `output[ii]`. -/
def NormalizeRef.loop (input output : ℕ) (minValue maxValue : ℚ) (ii : ℕ)
    (memory : Memory) : Memory :=
  if h : ii < (memory input).length then
    NormalizeRef.loop input output minValue maxValue (ii + 1)
      (Function.update memory output
        ((memory output).set ii (((memory input)[ii] - minValue) / (maxValue - minValue))))
  else
    memory
termination_by (memory input).length - ii
decreasing_by
  simp_wf
  by_cases hio : input = output
  · subst hio
    simp only [Function.update_same, List.length_set]
    omega
  · rw [Function.update_noteq hio]
    omega

/-- `void Normalize(const std::vector<double>& input, std::vector<double>& output)` called
on the references `input` and `output`, which may name the same vector: the memory after
the call. -/
def NormalizeRef (memory : Memory) (input output : ℕ) : Memory :=
  let memory := Function.update memory output (resize (memory output) (memory input).length)
  let minValue := MinValue (memory input)
  let maxValue := MaxValue (memory input)
  NormalizeRef.loop input output minValue maxValue 0 memory

/-- The loop `for (size_t idx = ...; idx <= stopIdx; ++idx)` of `FindValue`. The two reads
`values[idx - 1]` and `values[idx]` are unchecked in the source; the loop is only entered
with `stopIdx < values.size()`, an index outside the vector reads as `0`. -/
def FindValue.loop (values : List ℚ) (valueToFind : ℚ) (stopIdx idx : ℕ) : ℚ :=
  if idx ≤ stopIdx then
    let lastValue := values.getD (idx - 1) 0
    let thisValue := values.getD idx 0
    if thisValue ≥ valueToFind ∧ lastValue < valueToFind then
      let alpha := (thisValue - valueToFind) / (thisValue - lastValue)
      (idx : ℚ) - alpha
    else if thisValue ≤ valueToFind ∧ lastValue > valueToFind then
      let alpha := (lastValue - valueToFind) / (lastValue - thisValue)
      (idx : ℚ) - 1 + alpha
    else
      FindValue.loop values valueToFind stopIdx (idx + 1)
  else
    -- The vector doesn't contain the value to find.
    -1
termination_by stopIdx + 1 - idx

/-- `double FindValue(const std::vector<double>& values, double valueToFind,
size_t startIdx, size_t stopIdx)`. -/
def FindValue (values : List ℚ) (valueToFind : ℚ) (startIdx stopIdx : ℕ) : ℚ :=
  if stopIdx ≤ startIdx ∨ startIdx ≥ values.length then
    -1
  else if valueToFind = values.getD startIdx 0 then
    (startIdx : ℚ)
  else
    let stopIdx := min stopIdx (sizeSub values.length 1)
    FindValue.loop values valueToFind stopIdx (startIdx + 1)

/-- The loop `for (size_t ii = 1; ii < values.size(); ++ii)` of `MinMax(values, idx)`. Every
read `values[ii]` is below the loop bound. -/
def MinMax.loop (values : List ℚ) (ii : ℕ) (minValue maxValue : ℚ) (minIdx maxIdx : ℕ) :
    (ℚ × ℚ) × (ℕ × ℕ) :=
  if h : ii < values.length then
    if values[ii] < minValue then
      MinMax.loop values (ii + 1) values[ii] maxValue ii maxIdx
    else if values[ii] > maxValue then
      MinMax.loop values (ii + 1) minValue values[ii] minIdx ii
    else
      MinMax.loop values (ii + 1) minValue maxValue minIdx maxIdx
  else
    ((minValue, maxValue), (minIdx, maxIdx))
termination_by values.length - ii

/-- `std::pair<double, double> MinMax(const std::vector<double>& values,
std::pair<size_t, size_t>& idx)`: the returned pair and the value of `idx` after the call.
The reads `values[0]` and `values[1]` before the loop are unchecked: `none` stands for the
undefined behaviour of a read `values[i]` with `i >= values.size()`. -/
def MinMax (values : List ℚ) (_idx : ℕ × ℕ) : Option ((ℚ × ℚ) × (ℕ × ℕ)) :=
  if values.length = 0 then
    some ((0, 0), (0, 0))
  else
    match values[0]? with
    | none => none
    | some minValue =>
      match values[1]? with
      | none => none
      | some maxValue => some (MinMax.loop values 1 minValue maxValue 0 0)

/-- The loop `for (auto it = start; it < end; ++it)` of the iterator overload of `Average`.
An iterator is its position in the vector, `*it` reads `values[it]`; `none` stands for the
undefined behaviour of dereferencing a position outside the vector. -/
def AverageRange.loop (values : List ℚ) (stop it : ℕ) (sum numberOfValues : ℚ) :
    Option (ℚ × ℚ) :=
  if it < stop then
    match values[it]? with
    | none => none
    | some v => AverageRange.loop values stop (it + 1) (sum + v) (numberOfValues + 1)
  else
    some (sum, numberOfValues)
termination_by stop - it

/-- `double Average(std::vector<double>::const_iterator start,
std::vector<double>::const_iterator end)` on the iterators at the positions `start` and
`stop` of `values`. -/
def AverageRange (values : List ℚ) (start stop : ℕ) : Option ℚ :=
  if start > stop then
    some 0
  else if start = stop then
    values[start]?
  else
    match AverageRange.loop values stop start 0 0 with
    | none => none
    | some (sum, numberOfValues) => some (sum / numberOfValues)

/-- `double Average(const std::vector<double>& values)`: `begin(values)` is the position
`0` and `end(values)` the position `values.size()`. -/
def Average (values : List ℚ) : Option ℚ :=
  AverageRange values 0 values.length

/-- `void RemoveMean(std::vector<double>& values)`: the vector after the call. -/
def RemoveMean (values : List ℚ) : Option (List ℚ) :=
  match Average values with
  | none => none
  | some mean => some (values.map (fun value => value - mean))

/-- The loop `for (size_t ii = 0; ii < a.size(); ++ii)` of `SumOfSquaredDifferences`. It is
entered with `a.size() == b.size()`, an index outside `b` reads as `0`. -/
def SumOfSquaredDifferences.loop (a b : List ℚ) (ii : ℕ) (sum : ℚ) : ℚ :=
  if h : ii < a.length then
    let diff := a[ii] - b.getD ii 0
    SumOfSquaredDifferences.loop a b (ii + 1) (sum + diff * diff)
  else
    sum
termination_by a.length - ii

/-- `double SumOfSquaredDifferences(const std::vector<double>& a,
const std::vector<double>& b)`. -/
def SumOfSquaredDifferences (a b : List ℚ) : ℚ :=
  if a.length ≠ b.length then
    -1
  else
    SumOfSquaredDifferences.loop a b 0 0

/-- `double Median(std::vector<double>& values)`: the returned value and the vector after
the call, which `std::sort` has put in ascending order. The reads after the sort are
unchecked: `none` stands for the undefined behaviour of a read `values[i]` with
`i >= values.size()`. -/
def Median (values : List ℚ) : Option (ℚ × List ℚ) :=
  if values.length = 0 then
    some (0, values)
  else if values.length = 1 then
    match values[0]? with
    | none => none
    | some v => some (v, values)
  else
    let values := values.insertionSort (· ≤ ·)
    let midpointIndex := values.length >>> 1
    if values.length % 2 = 0 then
      match values[midpointIndex]? with
      | none => none
      | some a =>
        match values[midpointIndex + 1]? with
        | none => none
        | some b => some (0.5 * (a + b), values)
    else
      match values[midpointIndex]? with
      | none => none
      | some a => some (a, values)

end VectorUtils

namespace MathFit

/-- The data of a `CDiscreteFunction` (class `IParamFunction`): the sampled X values and
their Y values. -/
structure CDiscreteFunction where
  /-- `mXData`, sorted in ascending order. -/
  mXData : List ℚ
  /-- `mYData`. -/
  mYData : List ℚ

/-- `CVector::GetAt(i)`, the element at the index `i`. The class `CVector` is declared
outside the sources; the index is inside the vector at every call below, an index outside
reads as `0`. -/
def GetAt (v : List ℚ) (i : ℕ) : ℚ :=
  v.getD i 0

/-- `int CDiscreteFunction::FindXIndex(TFitData fXValue, int iLower = 0, int iUpper = -1)`.
The method is private and every caller leaves `iLower` at its default `0`, the recursion
only raises it: the lower index is a natural number. `iUpper` is an `int`, negative for
"not given". `(iUpper - iLower) / 2` divides a positive number. -/
def CDiscreteFunction.FindXIndex (f : CDiscreteFunction) (fXValue : ℚ) (iLower : ℕ)
    (iUpper : ℤ) : ℕ :=
  let iUpper : ℤ := if iUpper < 0 then (f.mXData.length : ℤ) - 1 else iUpper
  if _h : iUpper - iLower ≤ 1 then
    iLower
  else
    let iMid : ℕ := iLower + ((iUpper - iLower) / 2).toNat
    if fXValue ≥ GetAt f.mXData iMid then
      f.FindXIndex fXValue iMid iUpper
    else
      f.FindXIndex fXValue iLower iMid
termination_by ((if iUpper < 0 then (f.mXData.length : ℤ) - 1 else iUpper) - iLower).toNat
decreasing_by
  all_goals simp_wf
  all_goals simp only [iUpper] at *
  all_goals split_ifs at * <;> omega

/-- `TFitData CDiscreteFunction::GetValue(TFitData fXValue)`. -/
def CDiscreteFunction.GetValue (f : CDiscreteFunction) (fXValue : ℚ) : ℚ :=
  -- find appropriate interval in the X values
  let iIndex := f.FindXIndex fXValue 0 (-1)
  GetAt f.mYData iIndex

end MathFit

namespace novac

/-- `struct Correspondence`, with the default member initialisers of the header. -/
structure Correspondence where
  /-- The index of the keypoint in the measured spectrum. -/
  measuredIdx : ℕ := 0
  /-- The value of the keypoint in the measured spectrum. -/
  measuredValue : ℚ := 0.0
  /-- The index of the keypoint in the theoretical spectrum. -/
  theoreticalIdx : ℕ := 0
  /-- The value of the keypoint in the theoretical spectrum. -/
  theoreticalValue : ℚ := 0.0
  /-- An error measure between the keypoints in the two spectra, lower is better. -/
  error : ℚ := 0.0
  deriving DecidableEq

/-- The constructor `Correspondence()` with its initialiser list
`measuredIdx(0), theoreticalIdx(0), error(0.0)`. -/
def Correspondence.create : Correspondence :=
  { measuredIdx := 0, theoreticalIdx := 0, error := 0.0 }

/-- The constructor `Correspondence(size_t measured, size_t theoretical, double error)`. -/
def Correspondence.create3 (measured theoretical : ℕ) (error : ℚ) : Correspondence :=
  { measuredIdx := measured, theoreticalIdx := theoretical, error := error }

/-- `struct CorrespondenceSelectionSettings`. -/
structure CorrespondenceSelectionSettings where
  /-- The width, in pixels, around each keypoint used to gauge the error. -/
  pixelRegionSizeForCorrespondenceErrorMeasurement : ℕ := 20
  /-- The relative number of correspondences to select out of the total. -/
  percentageOfCorrespondencesToSelect : ℚ := 0.2
  /-- The first pixel to include in the calibration routine. -/
  measuredPixelStart : ℕ := 650
  /-- The last pixel to include in the calibration routine. -/
  measuredPixelStop : ℕ := 2100

/-- `struct RansacWavelengthCalibrationSettings`. -/
structure RansacWavelengthCalibrationSettings where
  modelPolynomialOrder : ℕ := 3
  numberOfRansacIterations : ℤ := 500000
  /-- The number of correspondences to select in one iteration. -/
  sampleSize : ℕ := 4
  /-- How close a keypoint needs to be for it to be considered an inlier, in nm. -/
  inlierLimitInWavelength : ℚ := 0.2
  /-- Maximum pixel error in the initial clb file. -/
  maximumPixelDistanceForPossibleCorrespondence : ℤ := 150
  refine : Bool := true

/-- `std::numeric_limits<double>::max()`. -/
def DBL_MAX : ℚ := 2 ^ 1024 - 2 ^ 971

/-- `struct RansacWavelengthCalibrationResult`, with the default member initialisers of
the header. -/
structure RansacWavelengthCalibrationResult where
  /-- The coefficients of the best polynomial, the 0th order coefficient first. -/
  bestFittingModelCoefficients : List ℚ := []
  /-- The order of `bestFittingModelCoefficients`. -/
  modelPolynomialOrder : ℕ := 3
  /-- The number of inliers which were achieved with this model. -/
  highestNumberOfInliers : ℕ := 0
  /-- Lists which of the incoming correspondences is an inlier. -/
  correspondenceIsInlier : List Bool := []
  /-- The smallest error in the model, by using the inliers. -/
  smallestError : ℚ := DBL_MAX
  /-- The total number of possible correlations. -/
  numberOfPossibleCorrelations : ℕ := 0

/-- Modelled from the spec: `PolynomialValueAt` is declared in
`WavelengthCalibrationByRansac.h`, its definition is not in the sources. The spec has
"`PolynomialValueAt(coefficients, x) -> Σ coefficients[i] * x^i`, coefficients ascending
order. Pure, total function (never fails), O(order)": one pass over the coefficients,
`c0 + x * (c1 + x * (c2 + ...))`. -/
def PolynomialValueAt (coefficients : List ℚ) (x : ℚ) : ℚ :=
  match coefficients with
  | [] => 0
  | c :: rest => c + x * PolynomialValueAt rest x

/-- Modelled from the spec: the two collaborators that the calibration core consumes and
that are not in the sources. `fit xs ys order` is the "least-squares polynomial fit
primitive with contract `fit(xs, ys, order) -> coefficients`, fails/returns-empty on
singular systems" (`none` for a degenerate fit). `draw generator n k` is the seedable
random source: from the state `generator` it draws `k` indices into a list of `n`
correspondences and hands back the next state of the generator. -/
structure RansacCollaborators where
  fit : List ℚ → List ℚ → ℕ → Option (List ℚ)
  draw : ℕ → ℕ → ℕ → List ℕ × ℕ

/-- Modelled from the spec: the inlier test of the calibration core, whose code is not in
the sources. "Evaluate the fitted polynomial at every correspondence's `measuredValue`; an
entry is an inlier iff `|predicted - theoreticalValue| <= inlierLimitInWavelength`". -/
def IsInlier (settings : RansacWavelengthCalibrationSettings) (coefficients : List ℚ)
    (c : Correspondence) : Bool :=
  decide (|PolynomialValueAt coefficients c.measuredValue - c.theoreticalValue|
    ≤ settings.inlierLimitInWavelength)

/-- Modelled from the spec: the residual error of a model, whose code is not in the
sources. "Compute the residual error over inliers only (sum of squared residuals)". -/
def ResidualError (settings : RansacWavelengthCalibrationSettings) (coefficients : List ℚ)
    (correspondences : List Correspondence) : ℚ :=
  ((correspondences.filter (IsInlier settings coefficients)).map
    (fun c => (PolynomialValueAt coefficients c.measuredValue - c.theoreticalValue) ^ 2)).sum

/-- Modelled from the spec: the update rule of the calibration core, whose code is not in
the sources. "Update the retained best model iff the new inlier count strictly exceeds the
current best, OR counts are equal and the new residual error is strictly lower". -/
def ReplacesBest (best : RansacWavelengthCalibrationResult) (numberOfInliers : ℕ)
    (error : ℚ) : Bool :=
  decide (numberOfInliers > best.highestNumberOfInliers ∨
    (numberOfInliers = best.highestNumberOfInliers ∧ error < best.smallestError))

/-- Modelled from the spec: one iteration of the calibration core on the drawn `sample`,
whose code is not in the sources (spec 4.4, Iterate, steps 2 to 5). The polynomial is fitted
to the sampled correspondences, mapping `measuredValue` to `theoreticalValue`; a degenerate
fit skips the iteration; otherwise the inliers of the fitted model are counted over all
the correspondences and the retained best model is updated by `ReplacesBest`. -/
def RansacIteration (settings : RansacWavelengthCalibrationSettings)
    (collaborators : RansacCollaborators) (correspondences : List Correspondence)
    (sample : List ℕ) (best : RansacWavelengthCalibrationResult) :
    RansacWavelengthCalibrationResult :=
  let sampled := sample.filterMap (fun i => correspondences[i]?)
  match collaborators.fit (sampled.map (fun c => c.measuredValue))
      (sampled.map (fun c => c.theoreticalValue)) settings.modelPolynomialOrder with
  | none => best
  | some coefficients =>
    let isInlier := correspondences.map (IsInlier settings coefficients)
    let numberOfInliers := isInlier.count true
    let error := ResidualError settings coefficients correspondences
    if ReplacesBest best numberOfInliers error then
      { best with
        bestFittingModelCoefficients := coefficients
        highestNumberOfInliers := numberOfInliers
        correspondenceIsInlier := isInlier
        smallestError := error }
    else
      best

/-- Modelled from the spec: the iteration loop of the calibration core, whose code is not in
the sources. "Iterate (exactly `numberOfRansacIterations` times, or fewer if a
perfect-consensus early-exit is reached, highest possible inlier count equal to input
size)"; each iteration draws `sampleSize` correspondences from the random source. -/
def RansacLoop (settings : RansacWavelengthCalibrationSettings)
    (collaborators : RansacCollaborators) (correspondences : List Correspondence) :
    (iterations : ℕ) → (generator : ℕ) → RansacWavelengthCalibrationResult →
      RansacWavelengthCalibrationResult
  | 0, _, best => best
  | iterations + 1, generator, best =>
    if best.highestNumberOfInliers = correspondences.length then
      best
    else
      let drawn := collaborators.draw generator correspondences.length settings.sampleSize
      RansacLoop settings collaborators correspondences iterations drawn.2
        (RansacIteration settings collaborators correspondences drawn.1 best)

/-- Modelled from the spec: the result that the calibration core holds before any model is
found, whose code is not in the sources. Zero inliers and the sentinel (max) error (spec
4.4, Init), all coefficients zero (4.4, failure semantics), coefficient vector of length
`order + 1`, mask over the input list and the total number of input correspondences (spec
3, RansacWavelengthCalibrationResult). -/
def InitialResult (settings : RansacWavelengthCalibrationSettings)
    (correspondences : List Correspondence) : RansacWavelengthCalibrationResult :=
  { bestFittingModelCoefficients := List.replicate (settings.modelPolynomialOrder + 1) 0
    modelPolynomialOrder := settings.modelPolynomialOrder
    highestNumberOfInliers := 0
    correspondenceIsInlier := List.replicate correspondences.length false
    smallestError := DBL_MAX
    numberOfPossibleCorrelations := correspondences.length }

/-- Modelled from the spec: `RansacWavelengthCalibrationSetup::DoWavelengthCalibration` is
declared in `WavelengthCalibrationByRansac.h`, its definition is not in the sources (spec
4.4). Init: with fewer than `sampleSize` correspondences the result with zero inliers and
the sentinel error is returned. Otherwise the loop runs from the state `seed` of the random
source, and the result holds the best model. -/
def DoWavelengthCalibration (settings : RansacWavelengthCalibrationSettings)
    (collaborators : RansacCollaborators) (seed : ℕ) (correspondences : List Correspondence) :
    RansacWavelengthCalibrationResult :=
  if correspondences.length < settings.sampleSize then
    InitialResult settings correspondences
  else
    RansacLoop settings collaborators correspondences
      settings.numberOfRansacIterations.toNat seed (InitialResult settings correspondences)

/-- The samples that the random source of `collaborators` delivers in `iterations`
successive draws of `sampleSize` indices out of `populationSize`, from the state
`generator` on. -/
def DrawnSamples (collaborators : RansacCollaborators) (populationSize sampleSize : ℕ) :
    (iterations : ℕ) → (generator : ℕ) → List (List ℕ)
  | 0, _ => []
  | iterations + 1, generator =>
    let drawn := collaborators.draw generator populationSize sampleSize
    drawn.1 :: DrawnSamples collaborators populationSize sampleSize iterations drawn.2

end novac

namespace VectorUtils

/-! ## GetAt -/

/-- Inside the vector `at` returns the element. -/
theorem vectorAt_of_lt (values : List ℚ) (i : ℤ) (h0 : 0 ≤ i) (h : i.toNat < values.length) :
    vectorAt values i = .ok values[i.toNat] := by
  simp [vectorAt, h0, List.getElem?_eq_getElem h]

/-- No wrap-around in `values.size() - 1` for a non-empty vector. -/
theorem sizeSub_one_of_pos (n : ℕ) (h : 0 < n) : sizeSub n 1 = n - 1 := by
  simp [sizeSub, Nat.succ_le_of_lt h]

/-- C1: for a non-empty vector and an index `0 <= idx <= values.size() - 1`, `GetAt` returns
the linear interpolation `values[floor(idx)] * (1 - a) + values[ceil(idx)] * a` with
`a = idx - floor(idx)`, both reads being inside the vector; at an integer index `k` in
range it returns `values[k]`. -/
theorem GetAt_interpolates (values : List ℚ) (idx : ℚ) (hne : values ≠ [])
    (h0 : 0 ≤ idx) (h1 : idx ≤ (values.length : ℚ) - 1) :
    (∃ (hf : ⌊idx⌋.toNat < values.length) (hc : ⌈idx⌉.toNat < values.length),
      GetAt values idx =
        .ok (values[⌊idx⌋.toNat] * (1 - (idx - (⌊idx⌋ : ℚ)))
              + values[⌈idx⌉.toNat] * (idx - (⌊idx⌋ : ℚ)))) ∧
    (∀ (k : ℕ) (hk : k < values.length), GetAt values (k : ℚ) = .ok values[k]) := by
  have hpos : 0 < values.length := List.length_pos.mpr hne
  have key : ∀ q : ℚ, 0 ≤ q → q ≤ (values.length : ℚ) - 1 →
      ∃ (hf : ⌊q⌋.toNat < values.length) (hc : ⌈q⌉.toNat < values.length),
      GetAt values q =
        .ok (values[⌊q⌋.toNat] * (1 - (q - (⌊q⌋ : ℚ)))
              + values[⌈q⌉.toNat] * (q - (⌊q⌋ : ℚ))) := by
    intro q hq0 hq1
    have hfl0 : 0 ≤ ⌊q⌋ := Int.floor_nonneg.mpr hq0
    have hce0 : 0 ≤ ⌈q⌉ := Int.ceil_nonneg hq0
    have hce : ⌈q⌉ ≤ (values.length : ℤ) - 1 := by
      rw [Int.ceil_le]; push_cast; exact hq1
    have hfl : ⌊q⌋ ≤ (values.length : ℤ) - 1 := le_trans (Int.floor_le_ceil q) hce
    have hf : ⌊q⌋.toNat < values.length := by omega
    have hc : ⌈q⌉.toNat < values.length := by omega
    refine ⟨hf, hc, ?_⟩
    have hguard : ¬ q > ((sizeSub values.length 1 : ℕ) : ℚ) := by
      rw [sizeSub_one_of_pos _ hpos, Nat.cast_sub (Nat.succ_le_of_lt hpos)]
      push_cast
      exact not_lt.mpr hq1
    unfold GetAt
    rw [if_neg (not_lt.mpr hq0), if_neg hguard, vectorAt_of_lt values _ hfl0 hf,
      vectorAt_of_lt values _ hce0 hc]
  refine ⟨key idx h0 h1, ?_⟩
  intro k hk
  have hk1 : (k : ℚ) ≤ (values.length : ℚ) - 1 := by
    have : (k : ℚ) + 1 ≤ (values.length : ℚ) := by exact_mod_cast hk
    linarith
  obtain ⟨hf, hc, h⟩ := key (k : ℚ) (Nat.cast_nonneg k) hk1
  rw [h]
  simp

/-- C1 at `values = {1, 2, 3, 4}`: `GetAt(values, 0.25) = 1.25`, `GetAt(values, 2) = 3`. -/
theorem GetAt_interpolates_witness :
    GetAt [1, 2, 3, 4] (1 / 4) = .ok (5 / 4) ∧ GetAt [1, 2, 3, 4] ((2 : ℕ) : ℚ) = .ok 3 := by
  have h := GetAt_interpolates [1, 2, 3, 4] (1 / 4) (by simp) (by norm_num) (by norm_num)
  obtain ⟨⟨hf, hc, h1⟩, h2⟩ := h
  have e1 : ⌊(1/4 : ℚ)⌋ = 0 := by rw [Int.floor_eq_iff]; norm_num
  have e2 : ⌈(1/4 : ℚ)⌉ = 1 := by rw [Int.ceil_eq_iff]; norm_num
  refine ⟨?_, h2 2 (by simp)⟩
  rw [h1]
  simp only [e1, e2]
  norm_num

/-- C2, refuted: the index `-1` is outside `{1, 2, 3, 4}`, and `GetAt` returns the ordinary
value `0.0` for it, no exception is raised. -/
theorem GetAt_out_of_bounds_returns_value :
    ((-1 : ℚ) < 0) ∧ GetAt [1, 2, 3, 4] (-1) = .ok 0 := by
  constructor
  · norm_num
  · simp [GetAt]

/-- C2, amended: `GetAt` returns the ordinary value `0.0` and raises nothing when `idx < 0`
(for every vector, the empty one included) and when `idx > values.size() - 1` on a
non-empty vector. -/
theorem GetAt_out_of_bounds_zero (values : List ℚ) (idx : ℚ)
    (h : idx < 0 ∨ (values ≠ [] ∧ idx > (values.length : ℚ) - 1)) :
    GetAt values idx = .ok 0 := by
  unfold GetAt
  rcases h with h | ⟨hne, h⟩
  · rw [if_pos h]
  · have hpos : 0 < values.length := List.length_pos.mpr hne
    by_cases h0 : idx < 0
    · rw [if_pos h0]
    · rw [if_neg h0, if_pos]
      rw [sizeSub_one_of_pos _ hpos, Nat.cast_sub (Nat.succ_le_of_lt hpos)]
      push_cast
      exact h

/-- C2, amended, above `{1, 2, 3, 4}`: `GetAt(values, 5) = 0.0`. -/
theorem GetAt_out_of_bounds_zero_witness : GetAt [1, 2, 3, 4] 5 = .ok 0 :=
  GetAt_out_of_bounds_zero [1, 2, 3, 4] 5 (Or.inr ⟨by simp, by norm_num⟩)

/-- On the empty vector `values.size() - 1` wraps to `2 ^ 64 - 1`: an index `idx` with
`0 <= idx <= 2 ^ 64 - 1` passes both guards and `values.at` throws `std::out_of_range`. -/
theorem GetAt_empty (idx : ℚ) (h0 : 0 ≤ idx) (h1 : idx ≤ 2 ^ 64 - 1) :
    GetAt [] idx = .error .outOfRange := by
  have hguard : ¬ idx > ((sizeSub ([] : List ℚ).length 1 : ℕ) : ℚ) := by
    simp only [sizeSub, List.length_nil]
    norm_num
    linarith
  unfold GetAt
  rw [if_neg (not_lt.mpr h0), if_neg hguard]
  simp [vectorAt, Int.floor_nonneg.mpr h0]

/-! ## FindValue -/

/-- C5: `FindValue` returns `-1` when the index range is invalid, `stopIdx <= startIdx` or
`startIdx >= values.size()`, whatever the vector holds. -/
theorem FindValue_invalid_range (values : List ℚ) (valueToFind : ℚ) (startIdx stopIdx : ℕ)
    (h : stopIdx ≤ startIdx ∨ startIdx ≥ values.length) :
    FindValue values valueToFind startIdx stopIdx = -1 := by
  unfold FindValue
  rw [if_pos h]

/-- C5 on `{4, 3, 2, 1}`: the value `4.0` is in the vector, the range `[3, 1)` is invalid and
the range `[6, 9)` starts outside the vector. -/
theorem FindValue_invalid_range_witness :
    (4 : ℚ) ∈ [(4 : ℚ), 3, 2, 1] ∧ FindValue [4, 3, 2, 1] 4 3 1 = -1 ∧
      FindValue [4, 3, 2, 1] 4 6 9 = -1 :=
  ⟨by simp, FindValue_invalid_range [4, 3, 2, 1] 4 3 1 (Or.inl (by norm_num)),
    FindValue_invalid_range [4, 3, 2, 1] 4 6 9 (Or.inr (by simp))⟩

/-- The index `k - alpha` of a rising crossing, counted from the lower neighbour. -/
theorem interpolation_rising (a b x k : ℚ) (h : a - b ≠ 0) :
    k - (a - x) / (a - b) = k - 1 + (x - b) / (a - b) := by
  field_simp
  ring

/-- The loop of `FindValue`, entered at `idx` with `values[idx - 1]` below the sought
value and `values[stopIdx]` not below it, stops at the first rising crossing `i -> i + 1`
and returns the interpolated index. -/
theorem FindValue_loop_rising (values : List ℚ) (x : ℚ) (stopIdx : ℕ) (n : ℕ) :
    ∀ (idx : ℕ), stopIdx + 1 - idx = n → 1 ≤ idx → idx ≤ stopIdx →
      values.getD (idx - 1) 0 < x → x ≤ values.getD stopIdx 0 →
      ∃ (i : ℕ), idx - 1 ≤ i ∧ i + 1 ≤ stopIdx ∧
        values.getD i 0 < x ∧ x ≤ values.getD (i + 1) 0 ∧
        FindValue.loop values x stopIdx idx =
          (i : ℚ) + (x - values.getD i 0) / (values.getD (i + 1) 0 - values.getD i 0) := by
  induction n with
  | zero =>
    intro idx hn h1 hle
    omega
  | succ n ih =>
    intro idx hn h1 hle hlast hstop
    rw [FindValue.loop, if_pos hle]
    by_cases hthis : values.getD idx 0 ≥ x
    · simp only [if_pos (And.intro hthis hlast)]
      refine ⟨idx - 1, le_refl _, by omega, hlast, ?_, ?_⟩
      · rw [Nat.sub_add_cancel h1]; exact hthis
      · rw [Nat.sub_add_cancel h1, Nat.cast_sub h1]
        have hne : values.getD idx 0 - values.getD (idx - 1) 0 ≠ 0 := by
          have : values.getD (idx - 1) 0 < values.getD idx 0 := lt_of_lt_of_le hlast hthis
          linarith
        push_cast
        exact interpolation_rising _ _ _ _ hne
    · have hlt : values.getD idx 0 < x := not_le.mp hthis
      have hc1 : ¬ (values.getD idx 0 ≥ x ∧ values.getD (idx - 1) 0 < x) := fun h => hthis h.1
      have hc2 : ¬ (values.getD idx 0 ≤ x ∧ values.getD (idx - 1) 0 > x) :=
        fun h => absurd h.2 (not_lt.mpr (le_of_lt hlast))
      simp only [if_neg hc1, if_neg hc2]
      have hne : idx ≠ stopIdx := by
        intro h
        rw [h] at hlt
        exact absurd hstop (not_le.mpr hlt)
      obtain ⟨i, hi1, hi2, hi3, hi4, hi5⟩ :=
        ih (idx + 1) (by omega) (by omega) (by omega) (by simpa using hlt) hstop
      exact ⟨i, by omega, hi2, hi3, hi4, hi5⟩

/-- The loop of `FindValue`, entered at `idx` with `values[idx - 1]` above the sought
value and `values[stopIdx]` not above it, stops at the first falling crossing
`i -> i + 1` and returns the interpolated index. -/
theorem FindValue_loop_falling (values : List ℚ) (x : ℚ) (stopIdx : ℕ) (n : ℕ) :
    ∀ (idx : ℕ), stopIdx + 1 - idx = n → 1 ≤ idx → idx ≤ stopIdx →
      values.getD (idx - 1) 0 > x → x ≥ values.getD stopIdx 0 →
      ∃ (i : ℕ), idx - 1 ≤ i ∧ i + 1 ≤ stopIdx ∧
        values.getD i 0 > x ∧ x ≥ values.getD (i + 1) 0 ∧
        FindValue.loop values x stopIdx idx =
          (i : ℚ) + (values.getD i 0 - x) / (values.getD i 0 - values.getD (i + 1) 0) := by
  induction n with
  | zero =>
    intro idx hn h1 hle
    omega
  | succ n ih =>
    intro idx hn h1 hle hlast hstop
    rw [FindValue.loop, if_pos hle]
    have hc1 : ¬ (values.getD idx 0 ≥ x ∧ values.getD (idx - 1) 0 < x) :=
      fun h => absurd h.2 (not_lt.mpr (le_of_lt hlast))
    by_cases hthis : values.getD idx 0 ≤ x
    · simp only [if_neg hc1, if_pos (And.intro hthis hlast)]
      refine ⟨idx - 1, le_refl _, by omega, hlast, ?_, ?_⟩
      · rw [Nat.sub_add_cancel h1]; exact hthis
      · rw [Nat.sub_add_cancel h1, Nat.cast_sub h1]
        push_cast
        ring
    · have hgt : values.getD idx 0 > x := not_le.mp hthis
      have hc2 : ¬ (values.getD idx 0 ≤ x ∧ values.getD (idx - 1) 0 > x) := fun h => hthis h.1
      simp only [if_neg hc1, if_neg hc2]
      have hne : idx ≠ stopIdx := by
        intro h
        rw [h] at hgt
        exact absurd hstop (not_le.mpr hgt)
      obtain ⟨i, hi1, hi2, hi3, hi4, hi5⟩ :=
        ih (idx + 1) (by omega) (by omega) (by omega) (by simpa using hgt) hstop
      exact ⟨i, by omega, hi2, hi3, hi4, hi5⟩

/-- C3: on a strictly increasing vector of length `n >= 2` and for
`values[0] <= x <= values[n - 1]`, `FindValue(values, x, 0, n)` is `0` when `x = values[0]`
and otherwise `i + (x - values[i]) / (values[i + 1] - values[i])` for the unique `i` with
`values[i] < x <= values[i + 1]`. -/
theorem FindValue_increasing (values : List ℚ) (x : ℚ) (hs : values.Pairwise (· < ·))
    (hn : 2 ≤ values.length) (hlo : values[0] ≤ x) (hhi : x ≤ values[values.length - 1]) :
    (x = values[0] → FindValue values x 0 values.length = 0) ∧
    (x ≠ values[0] → ∃ (i : ℕ) (hi : i + 1 < values.length),
      values[i] < x ∧ x ≤ values[i + 1] ∧
      (∀ (j : ℕ) (hj : j + 1 < values.length), values[j] < x → x ≤ values[j + 1] → j = i) ∧
      FindValue values x 0 values.length =
        (i : ℚ) + (x - values[i]) / (values[i + 1] - values[i])) := by
  have hguard : ¬ (values.length ≤ 0 ∨ 0 ≥ values.length) := by omega
  have h0 : values.getD 0 0 = values[0] := List.getD_eq_getElem _ _ (by omega)
  constructor
  · intro hx
    unfold FindValue
    rw [if_neg hguard, if_pos (by rw [h0]; exact hx)]
    simp
  · intro hx
    have hstop : min values.length (sizeSub values.length 1) = values.length - 1 := by
      rw [sizeSub_one_of_pos _ (by omega)]
      omega
    have hlast : values.getD (values.length - 1) 0 = values[values.length - 1] :=
      List.getD_eq_getElem _ _ (by omega)
    obtain ⟨i, _, hi2, hi3, hi4, hi5⟩ :=
      FindValue_loop_rising values x (values.length - 1) _ 1 rfl (le_refl _) (by omega)
        (by rw [Nat.sub_self, h0]; exact lt_of_le_of_ne hlo (Ne.symm hx))
        (by rw [hlast]; exact hhi)
    have hi : i + 1 < values.length := by omega
    have e1 : values.getD i 0 = values[i] := List.getD_eq_getElem _ _ (by omega)
    have e2 : values.getD (i + 1) 0 = values[i + 1] := List.getD_eq_getElem _ _ hi
    rw [e1] at hi3
    rw [e2] at hi4
    refine ⟨i, hi, hi3, hi4, ?_, ?_⟩
    · intro j hj hj1 hj2
      rw [List.pairwise_iff_getElem] at hs
      rcases Nat.lt_trichotomy j i with h | h | h
      · have : values[j + 1] ≤ values[i] := by
          rcases Nat.lt_or_ge (j + 1) i with h' | h'
          · exact le_of_lt (hs (j + 1) i hj (by omega) h')
          · have : j + 1 = i := by omega
            subst this; exact le_refl _
        linarith
      · exact h
      · have : values[i + 1] ≤ values[j] := by
          rcases Nat.lt_or_ge (i + 1) j with h' | h'
          · exact le_of_lt (hs (i + 1) j hi (by omega) h')
          · have : i + 1 = j := by omega
            subst this; exact le_refl _
        linarith
    · unfold FindValue
      rw [if_neg hguard, if_neg (by rw [h0]; exact hx)]
      simp only [hstop]
      rw [hi5, e1, e2]

/-- C4: on a strictly decreasing vector of length `n >= 2` and for
`values[n - 1] <= x <= values[0]`, `FindValue(values, x, 0, n)` is `0` when `x = values[0]`
and otherwise `i + (values[i] - x) / (values[i] - values[i + 1])` for the unique `i` with
`values[i] > x >= values[i + 1]`. -/
theorem FindValue_decreasing (values : List ℚ) (x : ℚ) (hs : values.Pairwise (· > ·))
    (hn : 2 ≤ values.length) (hlo : values[values.length - 1] ≤ x) (hhi : x ≤ values[0]) :
    (x = values[0] → FindValue values x 0 values.length = 0) ∧
    (x ≠ values[0] → ∃ (i : ℕ) (hi : i + 1 < values.length),
      values[i] > x ∧ x ≥ values[i + 1] ∧
      (∀ (j : ℕ) (hj : j + 1 < values.length), values[j] > x → x ≥ values[j + 1] → j = i) ∧
      FindValue values x 0 values.length =
        (i : ℚ) + (values[i] - x) / (values[i] - values[i + 1])) := by
  have hguard : ¬ (values.length ≤ 0 ∨ 0 ≥ values.length) := by omega
  have h0 : values.getD 0 0 = values[0] := List.getD_eq_getElem _ _ (by omega)
  constructor
  · intro hx
    unfold FindValue
    rw [if_neg hguard, if_pos (by rw [h0]; exact hx)]
    simp
  · intro hx
    have hstop : min values.length (sizeSub values.length 1) = values.length - 1 := by
      rw [sizeSub_one_of_pos _ (by omega)]
      omega
    have hlast : values.getD (values.length - 1) 0 = values[values.length - 1] :=
      List.getD_eq_getElem _ _ (by omega)
    obtain ⟨i, _, hi2, hi3, hi4, hi5⟩ :=
      FindValue_loop_falling values x (values.length - 1) _ 1 rfl (le_refl _) (by omega)
        (by rw [Nat.sub_self, h0]; exact lt_of_le_of_ne hhi hx)
        (by rw [hlast]; exact hlo)
    have hi : i + 1 < values.length := by omega
    have e1 : values.getD i 0 = values[i] := List.getD_eq_getElem _ _ (by omega)
    have e2 : values.getD (i + 1) 0 = values[i + 1] := List.getD_eq_getElem _ _ hi
    rw [e1] at hi3
    rw [e2] at hi4
    refine ⟨i, hi, hi3, hi4, ?_, ?_⟩
    · intro j hj hj1 hj2
      rw [List.pairwise_iff_getElem] at hs
      rcases Nat.lt_trichotomy j i with h | h | h
      · have : values[j + 1] ≥ values[i] := by
          rcases Nat.lt_or_ge (j + 1) i with h' | h'
          · exact le_of_lt (hs (j + 1) i hj (by omega) h')
          · have : j + 1 = i := by omega
            subst this; exact le_refl _
        linarith
      · exact h
      · have : values[i + 1] ≥ values[j] := by
          rcases Nat.lt_or_ge (i + 1) j with h' | h'
          · exact le_of_lt (hs (i + 1) j hi (by omega) h')
          · have : i + 1 = j := by omega
            subst this; exact le_refl _
        linarith
    · unfold FindValue
      rw [if_neg hguard, if_neg (by rw [h0]; exact hx)]
      simp only [hstop]
      rw [hi5, e1, e2]

/-- C3 on `{1, 2, 3, 4}`: the value `1.0` is found at `0` and `3.5` at `2.5`. -/
theorem FindValue_increasing_witness :
    FindValue [1, 2, 3, 4] 1 0 4 = 0 ∧ FindValue [1, 2, 3, 4] (7 / 2) 0 4 = 5 / 2 := by
  have hs : ([1, 2, 3, 4] : List ℚ).Pairwise (· < ·) := by norm_num
  constructor
  · exact (FindValue_increasing [1, 2, 3, 4] 1 hs (by simp) (by simp) (by norm_num)).1 (by simp)
  · obtain ⟨i, hi, h1, h2, _, h5⟩ :=
      (FindValue_increasing [1, 2, 3, 4] (7 / 2) hs (by simp) (by norm_num) (by norm_num)).2
        (by norm_num)
    have hi3 : i < 3 := by
      have hi4 : i + 1 < 4 := by simpa using hi
      omega
    have h5 : FindValue [1, 2, 3, 4] (7 / 2) 0 4 = _ := h5
    rw [h5]
    interval_cases i
    · norm_num at h2
    · norm_num at h2
    · norm_num

/-- C4 on `{4, 3, 2, 1}`: the value `4.0` is found at `0` and `1.25` at `2.75`. -/
theorem FindValue_decreasing_witness :
    FindValue [4, 3, 2, 1] 4 0 4 = 0 ∧ FindValue [4, 3, 2, 1] (5 / 4) 0 4 = 11 / 4 := by
  have hs : ([4, 3, 2, 1] : List ℚ).Pairwise (· > ·) := by norm_num
  constructor
  · exact (FindValue_decreasing [4, 3, 2, 1] 4 hs (by simp) (by norm_num) (by simp)).1 (by simp)
  · obtain ⟨i, hi, h1, h2, _, h5⟩ :=
      (FindValue_decreasing [4, 3, 2, 1] (5 / 4) hs (by simp) (by norm_num) (by norm_num)).2
        (by norm_num)
    have hi3 : i < 3 := by
      have hi4 : i + 1 < 4 := by simpa using hi
      omega
    have h5 : FindValue [4, 3, 2, 1] (5 / 4) 0 4 = _ := h5
    rw [h5]
    interval_cases i
    · norm_num at h2
    · norm_num at h2
    · norm_num

/-! ## Min and Max -/

/-- C8: on the empty vector `Min` and `Max` return `0.0` and set `idx` to `0`, whatever
`idx` held before the call. -/
theorem Min_Max_empty (idx : ℕ) : Min [] idx = (0, 0) ∧ Max [] idx = (0, 0) :=
  ⟨rfl, rfl⟩

/-- The loop of `Max`, entered with a running maximum `m = values[idx]` that is the
greatest of `values[0 .. ii)` and is first reached at `idx`, ends with the greatest
element of the vector and the first index holding it. -/
theorem Max_loop_spec (values : List ℚ) (n : ℕ) :
    ∀ (ii : ℕ) (m : ℚ) (idx : ℕ), values.length - ii = n → ii ≤ values.length →
      ∀ (hidx : idx < values.length), values[idx] = m →
      (∀ (j : ℕ) (hj : j < values.length), j < ii → values[j] ≤ m) →
      (∀ (j : ℕ) (hj : j < values.length), j < idx → values[j] < m) →
      ∃ (h : (Max.loop values ii m idx).2 < values.length),
        values[(Max.loop values ii m idx).2] = (Max.loop values ii m idx).1 ∧
        (∀ (j : ℕ) (hj : j < values.length), values[j] ≤ (Max.loop values ii m idx).1) ∧
        (∀ (j : ℕ) (hj : j < values.length), j < (Max.loop values ii m idx).2 →
          values[j] < (Max.loop values ii m idx).1) := by
  induction n with
  | zero =>
    intro ii m idx hn hii hidx hm hle hlt
    have hge : ¬ ii < values.length := by omega
    rw [Max.loop, dif_neg hge]
    exact ⟨hidx, hm, fun j hj => hle j hj (by omega), hlt⟩
  | succ n ih =>
    intro ii m idx hn hii hidx hm hle hlt
    have hlt' : ii < values.length := by omega
    rw [Max.loop, dif_pos hlt']
    by_cases hgt : values[ii] > m
    · rw [if_pos hgt]
      refine ih (ii + 1) values[ii] ii (by omega) (by omega) hlt' rfl ?_ ?_
      · intro j hj hji
        rcases Nat.lt_succ_iff_lt_or_eq.mp hji with h | h
        · exact le_trans (hle j hj h) (le_of_lt hgt)
        · subst h; exact le_refl _
      · intro j hj hji
        exact lt_of_le_of_lt (hle j hj hji) hgt
    · rw [if_neg hgt]
      refine ih (ii + 1) m idx (by omega) (by omega) hidx hm ?_ hlt
      intro j hj hji
      rcases Nat.lt_succ_iff_lt_or_eq.mp hji with h | h
      · exact hle j hj h
      · subst h; exact not_lt.mp hgt

/-- The loop of `Min`, entered with a running minimum `m = values[idx]` that is the
smallest of `values[0 .. ii)` and is first reached at `idx`, ends with the smallest
element of the vector and the first index holding it. -/
theorem Min_loop_spec (values : List ℚ) (n : ℕ) :
    ∀ (ii : ℕ) (m : ℚ) (idx : ℕ), values.length - ii = n → ii ≤ values.length →
      ∀ (hidx : idx < values.length), values[idx] = m →
      (∀ (j : ℕ) (hj : j < values.length), j < ii → m ≤ values[j]) →
      (∀ (j : ℕ) (hj : j < values.length), j < idx → m < values[j]) →
      ∃ (h : (Min.loop values ii m idx).2 < values.length),
        values[(Min.loop values ii m idx).2] = (Min.loop values ii m idx).1 ∧
        (∀ (j : ℕ) (hj : j < values.length), (Min.loop values ii m idx).1 ≤ values[j]) ∧
        (∀ (j : ℕ) (hj : j < values.length), j < (Min.loop values ii m idx).2 →
          (Min.loop values ii m idx).1 < values[j]) := by
  induction n with
  | zero =>
    intro ii m idx hn hii hidx hm hle hlt
    have hge : ¬ ii < values.length := by omega
    rw [Min.loop, dif_neg hge]
    exact ⟨hidx, hm, fun j hj => hle j hj (by omega), hlt⟩
  | succ n ih =>
    intro ii m idx hn hii hidx hm hle hlt
    have hlt' : ii < values.length := by omega
    rw [Min.loop, dif_pos hlt']
    by_cases hgt : values[ii] < m
    · rw [if_pos hgt]
      refine ih (ii + 1) values[ii] ii (by omega) (by omega) hlt' rfl ?_ ?_
      · intro j hj hji
        rcases Nat.lt_succ_iff_lt_or_eq.mp hji with h | h
        · exact le_trans (le_of_lt hgt) (hle j hj h)
        · subst h; exact le_refl _
      · intro j hj hji
        exact lt_of_lt_of_le hgt (hle j hj hji)
    · rw [if_neg hgt]
      refine ih (ii + 1) m idx (by omega) (by omega) hidx hm ?_ hlt
      intro j hj hji
      rcases Nat.lt_succ_iff_lt_or_eq.mp hji with h | h
      · exact hle j hj h
      · subst h; exact not_lt.mp hgt

/-- `Max` on a non-empty vector: the result is in the vector at the returned index, it
bounds every element, and every earlier element is strictly below it. -/
theorem Max_spec (values : List ℚ) (idx₀ : ℕ) (hne : values ≠ []) :
    ∃ (h : (Max values idx₀).2 < values.length),
      values[(Max values idx₀).2] = (Max values idx₀).1 ∧
      (∀ (j : ℕ) (hj : j < values.length), values[j] ≤ (Max values idx₀).1) ∧
      (∀ (j : ℕ) (hj : j < values.length), j < (Max values idx₀).2 →
        values[j] < (Max values idx₀).1) := by
  cases values with
  | nil => exact absurd rfl hne
  | cons v0 rest =>
    simp only [Max]
    refine Max_loop_spec (v0 :: rest) _ 1 v0 0 rfl (by simp) (by simp) rfl ?_ ?_
    · intro j hj hj1
      have : j = 0 := by omega
      subst this; simp
    · intro j hj hj0
      omega

/-- `Min` on a non-empty vector: the result is in the vector at the returned index, it
is below every element, and every earlier element is strictly above it. -/
theorem Min_spec (values : List ℚ) (idx₀ : ℕ) (hne : values ≠ []) :
    ∃ (h : (Min values idx₀).2 < values.length),
      values[(Min values idx₀).2] = (Min values idx₀).1 ∧
      (∀ (j : ℕ) (hj : j < values.length), (Min values idx₀).1 ≤ values[j]) ∧
      (∀ (j : ℕ) (hj : j < values.length), j < (Min values idx₀).2 →
        (Min values idx₀).1 < values[j]) := by
  cases values with
  | nil => exact absurd rfl hne
  | cons v0 rest =>
    simp only [Min]
    refine Min_loop_spec (v0 :: rest) _ 1 v0 0 rfl (by simp) (by simp) rfl ?_ ?_
    · intro j hj hj1
      have : j = 0 := by omega
      subst this; simp
    · intro j hj hj0
      omega

/-- C6: on a non-empty vector `Max(values, idx)` returns an element of the vector that
bounds every element, and sets `idx` to the smallest index holding it. -/
theorem Max_greatest_first (values : List ℚ) (idx₀ : ℕ) (hne : values ≠ []) :
    ∃ (h : (Max values idx₀).2 < values.length),
      values[(Max values idx₀).2] = (Max values idx₀).1 ∧
      (∀ x ∈ values, x ≤ (Max values idx₀).1) ∧
      (∀ (j : ℕ) (hj : j < values.length), values[j] = (Max values idx₀).1 →
        (Max values idx₀).2 ≤ j) := by
  obtain ⟨h, hval, hle, hlt⟩ := Max_spec values idx₀ hne
  refine ⟨h, hval, ?_, ?_⟩
  · intro x hx
    obtain ⟨j, hj, rfl⟩ := List.getElem_of_mem hx
    exact hle j hj
  · intro j hj hjm
    by_contra hcon
    exact absurd hjm (ne_of_lt (hlt j hj (not_le.mp hcon)))

/-- C6 on `{2, 9, 1, 9}`: the maximum `9` is reported at index `1`, not `3`. -/
theorem Max_greatest_first_witness : Max [2, 9, 1, 9] 5 = (9, 1) := by
  obtain ⟨h, hval, hle, hfirst⟩ := Max_greatest_first [2, 9, 1, 9] 5 (by simp)
  have h9 := hle 9 (by simp)
  have h1 := hfirst 1 (by simp)
  generalize Max [2, 9, 1, 9] 5 = r at h hval h9 h1 ⊢
  obtain ⟨m, i⟩ := r
  simp only [List.length_cons, List.length_nil] at h
  simp only at hval h9 h1 ⊢
  interval_cases i
  · simp at hval; linarith
  · simp at hval; rw [hval]
  · simp at hval; linarith
  · simp at hval; have := h1 (by simp [← hval]); omega

/-- C7: on a non-empty vector `Min(values, idx)` returns an element of the vector that is
below every element, and sets `idx` to the smallest index holding it. -/
theorem Min_least_first (values : List ℚ) (idx₀ : ℕ) (hne : values ≠ []) :
    ∃ (h : (Min values idx₀).2 < values.length),
      values[(Min values idx₀).2] = (Min values idx₀).1 ∧
      (∀ x ∈ values, (Min values idx₀).1 ≤ x) ∧
      (∀ (j : ℕ) (hj : j < values.length), values[j] = (Min values idx₀).1 →
        (Min values idx₀).2 ≤ j) := by
  obtain ⟨h, hval, hle, hlt⟩ := Min_spec values idx₀ hne
  refine ⟨h, hval, ?_, ?_⟩
  · intro x hx
    obtain ⟨j, hj, rfl⟩ := List.getElem_of_mem hx
    exact hle j hj
  · intro j hj hjm
    by_contra hcon
    exact absurd hjm (ne_of_gt (hlt j hj (not_le.mp hcon)))

/-- C7 on `{2, 1, 9, 1}`: the minimum `1` is reported at index `1`, not `3`. -/
theorem Min_least_first_witness : Min [2, 1, 9, 1] 5 = (1, 1) := by
  obtain ⟨h, hval, hle, hfirst⟩ := Min_least_first [2, 1, 9, 1] 5 (by simp)
  have h9 := hle 1 (by simp)
  have h1 := hfirst 1 (by simp)
  generalize Min [2, 1, 9, 1] 5 = r at h hval h9 h1 ⊢
  obtain ⟨m, i⟩ := r
  simp only [List.length_cons, List.length_nil] at h
  simp only at hval h9 h1 ⊢
  interval_cases i
  · simp at hval; linarith
  · simp at hval; rw [hval]
  · simp at hval; linarith
  · simp at hval; have := h1 (by simp [← hval]); omega

/-! ## Normalize -/

/-- The length after `resize(n)` is `n`. -/
theorem length_resize (v : List ℚ) (n : ℕ) : (resize v n).length = n := by
  simp only [resize, List.length_append, List.length_take, List.length_replicate]
  omega

/-- The loop of `Normalize`, entered at `ii` with an output of the length of the input,
keeps the length, keeps the elements below `ii` and writes the scaled input from `ii` on. -/
theorem Normalize_loop_spec (input : List ℚ) (minValue maxValue : ℚ) (n : ℕ) :
    ∀ (ii : ℕ) (output : List ℚ), input.length - ii = n → output.length = input.length →
      (Normalize.loop input minValue maxValue ii output).length = input.length ∧
      ∀ (j : ℕ) (hj : j < input.length),
        (Normalize.loop input minValue maxValue ii output)[j]? =
          if j < ii then output[j]? else some ((input[j] - minValue) / (maxValue - minValue)) := by
  induction n with
  | zero =>
    intro ii output hn hlen
    have hge : ¬ ii < input.length := by omega
    rw [Normalize.loop, dif_neg hge]
    refine ⟨hlen, ?_⟩
    intro j hj
    rw [if_pos (by omega)]
  | succ n ih =>
    intro ii output hn hlen
    have hlt : ii < input.length := by omega
    rw [Normalize.loop, dif_pos hlt]
    obtain ⟨h1, h2⟩ := ih (ii + 1)
      (output.set ii ((input[ii] - minValue) / (maxValue - minValue))) (by omega)
      (by rw [List.length_set]; exact hlen)
    refine ⟨h1, ?_⟩
    intro j hj
    rw [h2 j hj]
    by_cases hji : j < ii
    · rw [if_pos hji, if_pos (by omega), List.getElem?_set_ne (by omega)]
    · rw [if_neg hji]
      by_cases hje : j = ii
      · subst hje
        rw [if_pos (by omega), List.getElem?_set, if_pos rfl, if_pos (by omega)]
      · rw [if_neg (by omega)]

/-- After `Normalize(input, output)` the output has the length of the input and holds
`(input[i] - min) / (max - min)` at every index. -/
theorem Normalize_spec (input output : List ℚ) :
    (Normalize input output).2.length = input.length ∧
    ∀ (i : ℕ) (hi : i < input.length),
      (Normalize input output).2[i]? =
        some ((input[i] - MinValue input) / (MaxValue input - MinValue input)) := by
  obtain ⟨h1, h2⟩ := Normalize_loop_spec input (MinValue input) (MaxValue input) _ 0
    (resize output input.length) rfl (length_resize _ _)
  refine ⟨h1, ?_⟩
  intro i hi
  have := h2 i hi
  rw [if_neg (Nat.not_lt_zero i)] at this
  exact this

/-- C9: for an input with two distinct values, the output of `Normalize` has the length of
the input, holds `(input[i] - min) / (max - min)` at every index, lies in `[0, 1]`, has
minimum `0` and maximum `1`, and is `0` (`1`) where the input is at its minimum
(maximum). -/
theorem Normalize_unit_range (input output : List ℚ)
    (hd : ∃ a ∈ input, ∃ b ∈ input, a ≠ b) :
    (Normalize input output).2.length = input.length ∧
    (∀ (i : ℕ) (hi : i < input.length),
      (Normalize input output).2[i]? =
        some ((input[i] - MinValue input) / (MaxValue input - MinValue input))) ∧
    (∀ v ∈ (Normalize input output).2, 0 ≤ v ∧ v ≤ 1) ∧
    MinValue (Normalize input output).2 = 0 ∧
    MaxValue (Normalize input output).2 = 1 ∧
    (∀ (i : ℕ) (hi : i < input.length), input[i] = MinValue input →
      (Normalize input output).2[i]? = some 0) ∧
    (∀ (i : ℕ) (hi : i < input.length), input[i] = MaxValue input →
      (Normalize input output).2[i]? = some 1) := by
  obtain ⟨a, ha, b, hb, hab⟩ := hd
  have hne : input ≠ [] := List.ne_nil_of_mem ha
  obtain ⟨hlen, hout⟩ := Normalize_spec input output
  obtain ⟨hmin_lt, hmin_val, hmin_le, _⟩ := Min_spec input 0 hne
  obtain ⟨hmax_lt, hmax_val, hmax_le, _⟩ := Max_spec input 0 hne
  have hmn : ∀ x ∈ input, MinValue input ≤ x := by
    intro x hx
    obtain ⟨j, hj, rfl⟩ := List.getElem_of_mem hx
    exact hmin_le j hj
  have hmx : ∀ x ∈ input, x ≤ MaxValue input := by
    intro x hx
    obtain ⟨j, hj, rfl⟩ := List.getElem_of_mem hx
    exact hmax_le j hj
  have hpos : 0 < MaxValue input - MinValue input := by
    rcases lt_or_gt_of_ne hab with h | h
    · linarith [hmn a ha, hmx b hb]
    · linarith [hmn b hb, hmx a ha]
  have hrange : ∀ v ∈ (Normalize input output).2, 0 ≤ v ∧ v ≤ 1 := by
    intro v hv
    obtain ⟨j, hj, hjv⟩ := List.getElem_of_mem hv
    have hj' : j < input.length := hlen ▸ hj
    have h := hout j hj'
    rw [List.getElem?_eq_getElem hj, hjv] at h
    have hv' : v = (input[j] - MinValue input) / (MaxValue input - MinValue input) :=
      Option.some.inj h
    have h1 := hmn input[j] (List.getElem_mem hj')
    have h2 := hmx input[j] (List.getElem_mem hj')
    rw [hv']
    constructor
    · exact div_nonneg (by linarith) (le_of_lt hpos)
    · rw [div_le_one hpos]; linarith
  have hzero : ∀ (i : ℕ) (hi : i < input.length), input[i] = MinValue input →
      (Normalize input output).2[i]? = some 0 := by
    intro i hi h
    rw [hout i hi, h, sub_self, zero_div]
  have hone : ∀ (i : ℕ) (hi : i < input.length), input[i] = MaxValue input →
      (Normalize input output).2[i]? = some 1 := by
    intro i hi h
    rw [hout i hi, h, div_self (ne_of_gt hpos)]
  have hmem0 : (0 : ℚ) ∈ (Normalize input output).2 :=
    List.mem_iff_getElem?.mpr ⟨_, hzero _ hmin_lt hmin_val⟩
  have hmem1 : (1 : ℚ) ∈ (Normalize input output).2 :=
    List.mem_iff_getElem?.mpr ⟨_, hone _ hmax_lt hmax_val⟩
  have hne' : (Normalize input output).2 ≠ [] := List.ne_nil_of_mem hmem0
  refine ⟨hlen, hout, hrange, ?_, ?_, hzero, hone⟩
  · obtain ⟨k, hk, hle, _⟩ := Min_spec (Normalize input output).2 0 hne'
    obtain ⟨j, hj, hj0⟩ := List.getElem_of_mem hmem0
    have h1 := hle j hj
    rw [hj0] at h1
    have h2 := (hrange _ (List.getElem_mem k)).1
    rw [hk] at h2
    exact le_antisymm h1 h2
  · obtain ⟨k, hk, hle, _⟩ := Max_spec (Normalize input output).2 0 hne'
    obtain ⟨j, hj, hj1⟩ := List.getElem_of_mem hmem1
    have h1 := hle j hj
    rw [hj1] at h1
    have h2 := (hrange _ (List.getElem_mem k)).2
    rw [hk] at h2
    exact le_antisymm h2 h1

/-- C9 on `{2, 3, 4}`: the output has three elements, minimum `0` and maximum `1`. -/
theorem Normalize_unit_range_witness :
    (Normalize [2, 3, 4] [7, 7, 7, 7]).2.length = 3 ∧
      MinValue (Normalize [2, 3, 4] [7, 7, 7, 7]).2 = 0 ∧
      MaxValue (Normalize [2, 3, 4] [7, 7, 7, 7]).2 = 1 := by
  obtain ⟨h1, _, _, h4, h5, _, _⟩ :=
    Normalize_unit_range [2, 3, 4] [7, 7, 7, 7] ⟨2, by simp, 3, by simp, by norm_num⟩
  exact ⟨h1, h4, h5⟩

/-! ## Normalize on references -/

/-- `resize` to the current size changes nothing. -/
theorem resize_self (v : List ℚ) : resize v v.length = v := by
  simp [resize]

/-- The loop of `Normalize` on references, entered at `ii` with an output of the length of
the input and an input that still holds the original values from `ii` on, keeps the
length, keeps the output elements below `ii`, writes the scaled original values from `ii`
on, and touches no other vector. -/
theorem NormalizeRef_loop_spec (input output : ℕ) (minValue maxValue : ℚ) (orig : List ℚ)
    (n : ℕ) :
    ∀ (ii : ℕ) (memory : Memory), orig.length - ii = n →
      (memory input).length = orig.length → (memory output).length = orig.length →
      (∀ (j : ℕ), ii ≤ j → (memory input)[j]? = orig[j]?) →
      ((NormalizeRef.loop input output minValue maxValue ii memory) output).length
          = orig.length ∧
        (∀ (j : ℕ), j < orig.length →
          ((NormalizeRef.loop input output minValue maxValue ii memory) output)[j]? =
            if j < ii then (memory output)[j]?
            else some ((orig.getD j 0 - minValue) / (maxValue - minValue))) ∧
        (∀ (r : ℕ), r ≠ output →
          (NormalizeRef.loop input output minValue maxValue ii memory) r = memory r) := by
  induction n with
  | zero =>
    intro ii memory hn hin hout _
    have hge : ¬ ii < (memory input).length := by omega
    rw [NormalizeRef.loop, dif_neg hge]
    refine ⟨hout, ?_, fun r _ => rfl⟩
    intro j hj
    rw [if_pos (by omega)]
  | succ n ih =>
    intro ii memory hn hin hout horig
    have hlt : ii < (memory input).length := by omega
    have hval : (memory input)[ii] = orig.getD ii 0 := by
      have h1 := horig ii (le_refl _)
      rw [List.getElem?_eq_getElem hlt, List.getElem?_eq_getElem (by omega)] at h1
      rw [List.getD_eq_getElem orig 0 (by omega)]
      exact Option.some.inj h1
    rw [NormalizeRef.loop, dif_pos hlt]
    have hin' : ((Function.update memory output
        ((memory output).set ii (((memory input)[ii] - minValue) / (maxValue - minValue))))
        input).length = orig.length := by
      by_cases hio : input = output
      · subst hio
        rw [Function.update_same, List.length_set]
        exact hin
      · rw [Function.update_noteq hio]
        exact hin
    have hout' : ((Function.update memory output
        ((memory output).set ii (((memory input)[ii] - minValue) / (maxValue - minValue))))
        output).length = orig.length := by
      rw [Function.update_same, List.length_set]
      exact hout
    have horig' : ∀ (j : ℕ), ii + 1 ≤ j → ((Function.update memory output
        ((memory output).set ii (((memory input)[ii] - minValue) / (maxValue - minValue))))
        input)[j]? = orig[j]? := by
      intro j hj
      by_cases hio : input = output
      · subst hio
        rw [Function.update_same, List.getElem?_set_ne (by omega)]
        exact horig j (by omega)
      · rw [Function.update_noteq hio]
        exact horig j (by omega)
    obtain ⟨h1, h2, h3⟩ := ih (ii + 1) _ (by omega) hin' hout' horig'
    refine ⟨h1, ?_, ?_⟩
    · intro j hj
      rw [h2 j hj, Function.update_same]
      by_cases hji : j < ii
      · rw [if_pos hji, if_pos (by omega), List.getElem?_set_ne (by omega)]
      · rw [if_neg hji]
        by_cases hje : j = ii
        · subst hje
          rw [if_pos (by omega), List.getElem?_set, if_pos rfl, if_pos (by omega), hval]
        · rw [if_neg (by omega)]
    · intro r hr
      rw [h3 r hr, Function.update_noteq hr]

/-- After `Normalize(input, output)` on references, the vector under `output` is the one
that the value-level `Normalize` computes from the vectors the two references named before
the call, also when both name the same vector; the other vectors are untouched. -/
theorem NormalizeRef_output (memory : Memory) (input output : ℕ) :
    (NormalizeRef memory input output) output =
        (Normalize (memory input) (memory output)).2 ∧
      (∀ (r : ℕ), r ≠ output → (NormalizeRef memory input output) r = memory r) := by
  have hinput : (Function.update memory output
      (resize (memory output) (memory input).length)) input = memory input := by
    by_cases hio : input = output
    · subst hio
      rw [Function.update_same, resize_self]
    · rw [Function.update_noteq hio]
  obtain ⟨h1, h2, h3⟩ := NormalizeRef_loop_spec input output (MinValue (memory input))
    (MaxValue (memory input)) (memory input) _ 0
    (Function.update memory output (resize (memory output) (memory input).length)) rfl
    (by rw [hinput])
    (by rw [Function.update_same, length_resize])
    (by intro j _; rw [hinput])
  obtain ⟨hlen, hspec⟩ := Normalize_spec (memory input) (memory output)
  unfold NormalizeRef
  simp only [hinput]
  constructor
  · refine List.ext_getElem? ?_
    intro j
    by_cases hj : j < (memory input).length
    · rw [h2 j hj, if_neg (Nat.not_lt_zero j), hspec j hj, List.getD_eq_getElem _ _ hj]
    · rw [List.getElem?_eq_none (by omega), List.getElem?_eq_none (by omega)]
  · intro r hr
    rw [h3 r hr, Function.update_noteq hr]

/-- C10, refuted: the call `Normalize(v, v)` with `v = {2, 3, 4}` overwrites its input, which
is `{0, 0.5, 1}` after the call. -/
theorem NormalizeRef_aliased_overwrites_input :
    (NormalizeRef (fun _ => [2, 3, 4]) 0 0) 0 = [0, 1 / 2, 1] ∧
      (NormalizeRef (fun _ => [2, 3, 4]) 0 0) 0 ≠ [2, 3, 4] := by
  have hmin : MinValue [2, 3, 4] = 2 := by
    simp [MinValue, Min]
    rw [Min.loop]
    norm_num
    rw [Min.loop]
    norm_num
    rw [Min.loop]
    norm_num
  have hmax : MaxValue [2, 3, 4] = 4 := by
    simp [MaxValue, Max]
    rw [Max.loop]
    norm_num
    rw [Max.loop]
    norm_num
    rw [Max.loop]
    norm_num
  have h : (NormalizeRef (fun _ => [2, 3, 4]) 0 0) 0 = [0, 1 / 2, 1] := by
    rw [(NormalizeRef_output (fun _ => [2, 3, 4]) 0 0).1]
    simp only [Normalize, hmin, hmax, resize_self]
    rw [Normalize.loop]
    norm_num
    rw [Normalize.loop]
    norm_num
    rw [Normalize.loop]
    norm_num
    rw [Normalize.loop]
    norm_num
  refine ⟨h, ?_⟩
  rw [h]
  simp

/-- C10, amended: `Normalize(input, output)` leaves `output` with exactly `input.size()`
elements, whatever it held before, and it leaves `input` unchanged when `input` and
`output` are two distinct vectors. -/
theorem NormalizeRef_frame (memory : Memory) (input output : ℕ) :
    ((NormalizeRef memory input output) output).length = (memory input).length ∧
      (input ≠ output → (NormalizeRef memory input output) input = memory input) := by
  obtain ⟨h1, h2⟩ := NormalizeRef_output memory input output
  refine ⟨?_, fun hio => h2 input hio⟩
  rw [h1]
  exact (Normalize_spec (memory input) (memory output)).1

/-- C10, amended, on `input = {2, 3, 4}` and a distinct `output = {9}`: the output has three
elements after the call and the input is still `{2, 3, 4}`. -/
theorem NormalizeRef_frame_witness :
    ((NormalizeRef (fun r => if r = 0 then [2, 3, 4] else [9]) 0 1) 1).length = 3 ∧
      (NormalizeRef (fun r => if r = 0 then [2, 3, 4] else [9]) 0 1) 0 = [2, 3, 4] := by
  obtain ⟨h1, h2⟩ := NormalizeRef_frame (fun r => if r = 0 then [2, 3, 4] else [9]) 0 1
  exact ⟨h1, h2 (by decide)⟩

/-! ## MinMax -/

/-- C11, the failing input: on the one-element vector `{5}` the size is not `0`, so
`MinMax` goes on to read `values[1]`, an index that is not below `values.size() = 1`. -/
theorem MinMax_single_element_reads_past_end :
    ([5] : List ℚ).length = 1 ∧ ([5] : List ℚ)[1]? = none ∧ MinMax [5] (0, 0) = none := by
  refine ⟨rfl, rfl, ?_⟩
  simp [MinMax]

/-- The reads of `MinMax` stay inside the vector exactly when it does not have one single
element. -/
theorem MinMax_isSome_iff (values : List ℚ) (idx : ℕ × ℕ) :
    (MinMax values idx).isSome ↔ values.length ≠ 1 := by
  unfold MinMax
  match values with
  | [] => simp
  | [a] => simp
  | a :: b :: rest => simp

/-! ## Average and RemoveMean -/

/-- C12, the failing input: on the empty vector `begin == end`, the iterator overload of
`Average` returns `*start` and so dereferences the end position; `RemoveMean` calls
`Average` first. -/
theorem Average_empty_dereferences_end :
    AverageRange [] 0 0 = none ∧ Average [] = none ∧ RemoveMean [] = none := by
  have h : AverageRange [] 0 0 = none := by simp [AverageRange]
  have h' : Average [] = none := h
  refine ⟨h, h', ?_⟩
  simp only [RemoveMean, h']

/-! ## SumOfSquaredDifferences -/

/-- The loop of `SumOfSquaredDifferences` adds the squared differences from `ii` on. -/
theorem SumOfSquaredDifferences_loop_eq (a b : List ℚ) (n : ℕ) :
    ∀ (ii : ℕ) (sum : ℚ), a.length - ii = n → ii ≤ a.length →
      SumOfSquaredDifferences.loop a b ii sum =
        sum + ∑ i in Finset.Ico ii a.length, (a.getD i 0 - b.getD i 0) ^ 2 := by
  induction n with
  | zero =>
    intro ii sum hn hle
    have hge : ¬ ii < a.length := by omega
    rw [SumOfSquaredDifferences.loop, dif_neg hge, Finset.Ico_eq_empty (by omega)]
    simp
  | succ n ih =>
    intro ii sum hn hle
    have hlt : ii < a.length := by omega
    rw [SumOfSquaredDifferences.loop, dif_pos hlt]
    simp only
    rw [ih (ii + 1) _ (by omega) (by omega), Finset.sum_eq_sum_Ico_succ_bot hlt,
      List.getD_eq_getElem a 0 hlt]
    ring

/-- For vectors of equal length `SumOfSquaredDifferences` is the sum of `(a[i] - b[i])^2`. -/
theorem SumOfSquaredDifferences_eq_sum (a b : List ℚ) (h : a.length = b.length) :
    SumOfSquaredDifferences a b =
      ∑ i in Finset.range a.length, (a.getD i 0 - b.getD i 0) ^ 2 := by
  unfold SumOfSquaredDifferences
  rw [if_neg (not_not.mpr h), SumOfSquaredDifferences_loop_eq a b _ 0 0 rfl (Nat.zero_le _),
    zero_add, Finset.range_eq_Ico]

/-- C13: for vectors of equal length `SumOfSquaredDifferences(a, b)` is the sum over `i` of
`(a[i] - b[i])^2`, it is symmetric in `a` and `b`, and it is `0` exactly when `a = b`. -/
theorem SumOfSquaredDifferences_spec (a b : List ℚ) (h : a.length = b.length) :
    SumOfSquaredDifferences a b =
        ∑ i in Finset.range a.length, (a.getD i 0 - b.getD i 0) ^ 2 ∧
      SumOfSquaredDifferences a b = SumOfSquaredDifferences b a ∧
      (SumOfSquaredDifferences a b = 0 ↔ a = b) := by
  have hab := SumOfSquaredDifferences_eq_sum a b h
  have hba := SumOfSquaredDifferences_eq_sum b a h.symm
  refine ⟨hab, ?_, ?_⟩
  · rw [hab, hba, h]
    refine Finset.sum_congr rfl ?_
    intro i _
    ring
  · rw [hab]
    constructor
    · intro hz
      rw [Finset.sum_eq_zero_iff_of_nonneg (fun i _ => sq_nonneg _)] at hz
      refine List.ext_getElem h ?_
      intro i h1 h2
      have := hz i (Finset.mem_range.mpr h1)
      rw [List.getD_eq_getElem a 0 h1, List.getD_eq_getElem b 0 h2] at this
      have h0 := pow_eq_zero_iff (two_ne_zero) |>.mp this
      linarith
    · intro he
      subst he
      simp

/-- C13 on `a = {1, 2}` and `b = {3, 5}`: the two sums agree, and `a` against itself
gives `0`. -/
theorem SumOfSquaredDifferences_spec_witness :
    SumOfSquaredDifferences [1, 2] [3, 5] = SumOfSquaredDifferences [3, 5] [1, 2] ∧
      SumOfSquaredDifferences [1, 2] [1, 2] = 0 :=
  ⟨(SumOfSquaredDifferences_spec [1, 2] [3, 5] rfl).2.1,
    (SumOfSquaredDifferences_spec [1, 2] [1, 2] rfl).2.2.mpr rfl⟩

/-- C14, refuted: for vectors of different length the score is `-1.0`, below zero. -/
theorem SumOfSquaredDifferences_negative :
    SumOfSquaredDifferences [1] [] = -1 ∧ SumOfSquaredDifferences [1] [] < 0 := by
  have h : SumOfSquaredDifferences [1] [] = -1 := by simp [SumOfSquaredDifferences]
  exact ⟨h, by rw [h]; norm_num⟩

/-- C14, amended: `SumOfSquaredDifferences(a, b)` is non-negative for vectors of equal
length, and it is the sentinel `-1.0` for vectors of different length. -/
theorem SumOfSquaredDifferences_nonneg_or_sentinel (a b : List ℚ) :
    (a.length = b.length → 0 ≤ SumOfSquaredDifferences a b) ∧
      (a.length ≠ b.length → SumOfSquaredDifferences a b = -1) := by
  constructor
  · intro h
    rw [SumOfSquaredDifferences_eq_sum a b h]
    exact Finset.sum_nonneg (fun i _ => sq_nonneg _)
  · intro h
    unfold SumOfSquaredDifferences
    rw [if_pos h]

/-- C14, amended, on `{1, 2}` against `{3, 5}` (equal length) and `{1, 2}` against `{3}`. -/
theorem SumOfSquaredDifferences_nonneg_or_sentinel_witness :
    0 ≤ SumOfSquaredDifferences [1, 2] [3, 5] ∧ SumOfSquaredDifferences [1, 2] [3] = -1 :=
  ⟨(SumOfSquaredDifferences_nonneg_or_sentinel [1, 2] [3, 5]).1 rfl,
    (SumOfSquaredDifferences_nonneg_or_sentinel [1, 2] [3]).2 (by simp)⟩

/-! ## FindValue and GetAt -/

/-- `at` with a natural index inside the vector returns the element. -/
theorem vectorAt_natCast (values : List ℚ) (k : ℕ) (hk : k < values.length) :
    vectorAt values (k : ℤ) = .ok values[k] := by
  simp [vectorAt, List.getElem?_eq_getElem hk]

/-- `GetAt` at an integer index inside the vector returns the element. -/
theorem GetAt_natCast (values : List ℚ) (k : ℕ) (hk : k < values.length) :
    GetAt values (k : ℚ) = .ok values[k] := by
  have hguard : ¬ (k : ℚ) > ((sizeSub values.length 1 : ℕ) : ℚ) := by
    rw [sizeSub_one_of_pos _ (by omega)]
    have : k ≤ values.length - 1 := by omega
    exact not_lt.mpr (by exact_mod_cast this)
  unfold GetAt
  rw [if_neg (not_lt.mpr (Nat.cast_nonneg k)), if_neg hguard]
  have hfl : ⌊(k : ℚ)⌋ = (k : ℤ) := Int.floor_natCast k
  have hce : ⌈(k : ℚ)⌉ = (k : ℤ) := Int.ceil_natCast k
  rw [hfl, hce, vectorAt_natCast values k hk]
  simp

/-- `GetAt` strictly inside the step from `j` to `j + 1`, or at `j + 1`, interpolates
between the two neighbours. -/
theorem GetAt_between (values : List ℚ) (j : ℕ) (hj : j + 1 < values.length) (a : ℚ)
    (h0 : 0 < a) (h1 : a ≤ 1) :
    GetAt values ((j : ℚ) + a) = .ok (values[j] * (1 - a) + values[j + 1] * a) := by
  rcases eq_or_lt_of_le h1 with h | h
  · subst h
    have e : (j : ℚ) + 1 = ((j + 1 : ℕ) : ℚ) := by push_cast; ring
    rw [e, GetAt_natCast values (j + 1) hj]
    simp
  · have hguard : ¬ (j : ℚ) + a > ((sizeSub values.length 1 : ℕ) : ℚ) := by
      rw [sizeSub_one_of_pos _ (by omega)]
      have h2 : j + 1 ≤ values.length - 1 := by omega
      have h3 : ((j + 1 : ℕ) : ℚ) ≤ ((values.length - 1 : ℕ) : ℚ) := by exact_mod_cast h2
      push_cast at h3
      exact not_lt.mpr (by linarith)
    have hnonneg : ¬ (j : ℚ) + a < 0 := by
      have : (0 : ℚ) ≤ (j : ℚ) := Nat.cast_nonneg j
      exact not_lt.mpr (by linarith)
    have hfl : ⌊(j : ℚ) + a⌋ = (j : ℤ) := by
      rw [Int.floor_eq_iff]
      push_cast
      constructor <;> linarith
    have hce : ⌈(j : ℚ) + a⌉ = ((j + 1 : ℕ) : ℤ) := by
      rw [Int.ceil_eq_iff]
      push_cast
      constructor <;> linarith
    unfold GetAt
    rw [if_neg hnonneg, if_neg hguard, hfl, hce, vectorAt_natCast values j (by omega),
      vectorAt_natCast values (j + 1) hj]
    simp only [Int.cast_natCast]
    congr 1
    ring

/-- The value of the step from `last` to `this` at the fraction `(x - last) / (this - last)`
is `x`. -/
theorem interpolation_hits (last this x : ℚ) (h : this - last ≠ 0) :
    last * (1 - (x - last) / (this - last)) + this * ((x - last) / (this - last)) = x := by
  field_simp
  ring

/-- The value of the step from `last` down to `this` at the fraction
`(last - x) / (last - this)` is `x`. -/
theorem interpolation_hits_falling (last this x : ℚ) (h : last - this ≠ 0) :
    last * (1 - (last - x) / (last - this)) + this * ((last - x) / (last - this)) = x := by
  field_simp
  ring

/-- A hit of the loop of `FindValue` lies in `(idx - 1, stopIdx]`, and `GetAt` gives the
sought value back there. -/
theorem FindValue_loop_hit (values : List ℚ) (x : ℚ) (stopIdx : ℕ)
    (hstop : stopIdx < values.length) (n : ℕ) :
    ∀ (idx : ℕ), stopIdx + 1 - idx = n → 1 ≤ idx →
      0 ≤ FindValue.loop values x stopIdx idx →
      (idx : ℚ) - 1 < FindValue.loop values x stopIdx idx ∧
        FindValue.loop values x stopIdx idx ≤ (stopIdx : ℚ) ∧
        GetAt values (FindValue.loop values x stopIdx idx) = .ok x := by
  induction n with
  | zero =>
    intro idx hn h1 hr
    have hgt : ¬ idx ≤ stopIdx := by omega
    rw [FindValue.loop, if_neg hgt] at hr
    norm_num at hr
  | succ n ih =>
    intro idx hn h1 hr
    have hle : idx ≤ stopIdx := by omega
    have hidx : idx < values.length := by omega
    have hj : idx - 1 + 1 < values.length := by omega
    have ethis : values.getD idx 0 = values[idx - 1 + 1] := by
      rw [List.getD_eq_getElem _ _ hidx]
      congr 1
      omega
    have elast : values.getD (idx - 1) 0 = values[idx - 1] :=
      List.getD_eq_getElem _ _ (by omega)
    have hcast : ((idx - 1 : ℕ) : ℚ) = (idx : ℚ) - 1 := by
      rw [Nat.cast_sub h1]; simp
    have hidxle : (idx : ℚ) ≤ (stopIdx : ℚ) := by exact_mod_cast hle
    rw [FindValue.loop, if_pos hle] at hr ⊢
    by_cases hc1 : values.getD idx 0 ≥ x ∧ values.getD (idx - 1) 0 < x
    · simp only [if_pos hc1] at hr ⊢
      obtain ⟨hthis, hlast⟩ := hc1
      have hpos : 0 < values.getD idx 0 - values.getD (idx - 1) 0 := by linarith
      have ha0 : 0 < (x - values.getD (idx - 1) 0) /
          (values.getD idx 0 - values.getD (idx - 1) 0) := div_pos (by linarith) hpos
      have ha1 : (x - values.getD (idx - 1) 0) /
          (values.getD idx 0 - values.getD (idx - 1) 0) ≤ 1 := by
        rw [div_le_one hpos]; linarith
      have hr' : (idx : ℚ) - (values.getD idx 0 - x) /
            (values.getD idx 0 - values.getD (idx - 1) 0) =
          ((idx - 1 : ℕ) : ℚ) + (x - values.getD (idx - 1) 0) /
            (values.getD idx 0 - values.getD (idx - 1) 0) := by
        rw [hcast]
        exact interpolation_rising _ _ _ _ (ne_of_gt hpos)
      rw [hr']
      refine ⟨by rw [hcast]; linarith, by rw [hcast]; linarith, ?_⟩
      rw [GetAt_between values (idx - 1) hj _ ha0 ha1, ← ethis, ← elast,
        interpolation_hits _ _ _ (ne_of_gt hpos)]
    · by_cases hc2 : values.getD idx 0 ≤ x ∧ values.getD (idx - 1) 0 > x
      · simp only [if_neg hc1, if_pos hc2] at hr ⊢
        obtain ⟨hthis, hlast⟩ := hc2
        have hpos : 0 < values.getD (idx - 1) 0 - values.getD idx 0 := by linarith
        have ha0 : 0 < (values.getD (idx - 1) 0 - x) /
            (values.getD (idx - 1) 0 - values.getD idx 0) := div_pos (by linarith) hpos
        have ha1 : (values.getD (idx - 1) 0 - x) /
            (values.getD (idx - 1) 0 - values.getD idx 0) ≤ 1 := by
          rw [div_le_one hpos]; linarith
        rw [← hcast]
        refine ⟨by rw [hcast]; linarith, by rw [hcast]; linarith, ?_⟩
        rw [GetAt_between values (idx - 1) hj _ ha0 ha1, ← ethis, ← elast,
          interpolation_hits_falling _ _ _ (ne_of_gt hpos)]
      · simp only [if_neg hc1, if_neg hc2] at hr ⊢
        obtain ⟨h2, h3, h4⟩ := ih (idx + 1) (by omega) (by omega) hr
        refine ⟨?_, h3, h4⟩
        push_cast at h2
        linarith

/-- C24: when `FindValue(values, x, startIdx, stopIdx)` returns `r >= 0`, then
`startIdx <= r <= min(stopIdx, values.size() - 1)` and `GetAt(values, r)` is `x`. -/
theorem FindValue_GetAt_inverse (values : List ℚ) (x : ℚ) (startIdx stopIdx : ℕ)
    (h : 0 ≤ FindValue values x startIdx stopIdx) :
    (startIdx : ℚ) ≤ FindValue values x startIdx stopIdx ∧
      FindValue values x startIdx stopIdx ≤ ((min stopIdx (values.length - 1) : ℕ) : ℚ) ∧
      GetAt values (FindValue values x startIdx stopIdx) = .ok x := by
  unfold FindValue at h ⊢
  by_cases hguard : stopIdx ≤ startIdx ∨ startIdx ≥ values.length
  · rw [if_pos hguard] at h
    norm_num at h
  · rw [if_neg hguard] at h ⊢
    have hlt : startIdx < values.length := by omega
    have hrange : startIdx < stopIdx := by omega
    by_cases hx : x = values.getD startIdx 0
    · rw [if_pos hx]
      refine ⟨le_refl _, ?_, ?_⟩
      · have : startIdx ≤ min stopIdx (values.length - 1) := by omega
        exact_mod_cast this
      · rw [GetAt_natCast values startIdx hlt, hx, List.getD_eq_getElem _ _ hlt]
    · rw [if_neg hx] at h ⊢
      simp only [sizeSub_one_of_pos _ (Nat.lt_of_le_of_lt (Nat.zero_le _) hlt)] at h ⊢
      obtain ⟨h1, h2, h3⟩ := FindValue_loop_hit values x (min stopIdx (values.length - 1))
        (by omega) _ (startIdx + 1) rfl (by omega) h
      refine ⟨?_, h2, h3⟩
      push_cast at h1
      linarith

/-- C24 on `{1, 2, 3, 4}`: the value `1.5` is found at `0.5`, and `GetAt` gives it back. -/
theorem FindValue_GetAt_inverse_witness :
    FindValue [1, 2, 3, 4] (3 / 2) 0 4 = 1 / 2 ∧
      GetAt [1, 2, 3, 4] (FindValue [1, 2, 3, 4] (3 / 2) 0 4) = .ok (3 / 2) := by
  have hv : FindValue [1, 2, 3, 4] (3 / 2) 0 4 = 1 / 2 := by
    unfold FindValue
    rw [FindValue.loop]
    norm_num [sizeSub]
  exact ⟨hv, (FindValue_GetAt_inverse [1, 2, 3, 4] (3 / 2) 0 4 (by rw [hv]; norm_num)).2.2⟩

/-! ## MinMax against Min and Max -/

/-- C25, the failing input: on `{3, 1}` the maximum starts from `values[1] = 1` with the
index `0`, the first element `3` is never compared, and `MinMax` returns the pair `(1, 1)`
with the indices `(1, 0)`, while `Min` gives `1` at index `1` and `Max` gives `3` at index
`0`. -/
theorem MinMax_misses_first_element :
    MinMax [3, 1] (0, 0) = some ((1, 1), (1, 0)) ∧
      Min [3, 1] 0 = (1, 1) ∧ Max [3, 1] 0 = (3, 0) := by
  refine ⟨?_, ?_, ?_⟩
  · simp [MinMax]
    rw [MinMax.loop]
    norm_num
    rw [MinMax.loop]
    norm_num
  · simp only [Min]
    rw [Min.loop]
    norm_num
    rw [Min.loop]
    norm_num
  · simp only [Max]
    rw [Max.loop]
    norm_num
    rw [Max.loop]
    norm_num

/-! ## Median -/

/-- C26, the failing inputs: on `{1, 2, 3, 4}` the two middle elements of the sorted vector
are `2` and `3` with the mean `2.5`, but `Median` adds `values[2]` and `values[3]` and
returns `3.5`; on `{1, 2}` it reads `values[2]`, which is not below the size `2`. -/
theorem Median_even_reads_one_too_far :
    Median [1, 2, 3, 4] = some (7 / 2, [1, 2, 3, 4]) ∧
      (0.5 : ℚ) * (([1, 2, 3, 4] : List ℚ)[1] + ([1, 2, 3, 4] : List ℚ)[2]) = 5 / 2 ∧
      Median [1, 2] = none := by
  refine ⟨?_, ?_, ?_⟩
  · simp only [Median]
    norm_num [List.insertionSort, List.orderedInsert, Nat.shiftRight_eq_div_pow]
  · norm_num
  · simp only [Median]
    norm_num [List.insertionSort, List.orderedInsert, Nat.shiftRight_eq_div_pow]

/-! ## RemoveMean -/

/-- The loop of `Average` over the whole vector adds up the elements from `it` on and
counts them. -/
theorem AverageRange_loop_eq (values : List ℚ) (n : ℕ) :
    ∀ (it : ℕ) (sum numberOfValues : ℚ), values.length - it = n → it ≤ values.length →
      AverageRange.loop values values.length it sum numberOfValues =
        some (sum + (values.drop it).sum, numberOfValues + ((values.length - it : ℕ) : ℚ)) := by
  induction n with
  | zero =>
    intro it sum numberOfValues hn hle
    have hge : ¬ it < values.length := by omega
    have hit : it = values.length := by omega
    rw [AverageRange.loop, if_neg hge, hit]
    simp
  | succ n ih =>
    intro it sum numberOfValues hn hle
    have hlt : it < values.length := by omega
    rw [AverageRange.loop, if_pos hlt, List.getElem?_eq_getElem hlt]
    simp only
    rw [ih (it + 1) _ _ (by omega) (by omega), List.drop_eq_getElem_cons hlt, List.sum_cons]
    have hc : ((values.length - it : ℕ) : ℚ) = ((values.length - (it + 1) : ℕ) : ℚ) + 1 := by
      have : values.length - it = values.length - (it + 1) + 1 := by omega
      rw [this]
      push_cast
      ring
    rw [hc]
    congr 1
    ext <;> simp <;> ring

/-- On a non-empty vector `Average` reads inside the vector and returns the sum of the
elements divided by their number. -/
theorem Average_eq (values : List ℚ) (hne : values ≠ []) :
    Average values = some (values.sum / (values.length : ℚ)) := by
  have hpos : 0 < values.length := List.length_pos.mpr hne
  unfold Average AverageRange
  rw [if_neg (by omega), if_neg (by omega),
    AverageRange_loop_eq values _ 0 0 0 rfl (Nat.zero_le _)]
  simp

/-- Subtracting a constant from every element lowers the sum by the constant times the
number of elements. -/
theorem sum_map_sub_const (values : List ℚ) (m : ℚ) :
    (values.map (fun value => value - m)).sum = values.sum - (values.length : ℚ) * m := by
  induction values with
  | nil => simp
  | cons v rest ih =>
    simp only [List.map_cons, List.sum_cons, List.length_cons, ih]
    push_cast
    ring

/-- C27: on a non-empty vector `RemoveMean` lowers every element by the average of the
vector, keeps the length, leaves a vector whose elements sum to `0`, and changes nothing
when it is applied a second time. -/
theorem RemoveMean_zero_mean (values : List ℚ) (hne : values ≠ []) :
    ∃ (out : List ℚ), RemoveMean values = some out ∧
      out = values.map (fun value => value - values.sum / (values.length : ℚ)) ∧
      out.length = values.length ∧
      out.sum = 0 ∧
      RemoveMean out = some out := by
  have hpos : 0 < values.length := List.length_pos.mpr hne
  have hlen : ((values.length : ℚ)) ≠ 0 := by exact_mod_cast (Nat.pos_iff_ne_zero.mp hpos)
  have hsum : (values.map (fun value => value - values.sum / (values.length : ℚ))).sum = 0 := by
    rw [sum_map_sub_const]
    field_simp
  refine ⟨values.map (fun value => value - values.sum / (values.length : ℚ)), ?_, rfl,
    List.length_map _ _, hsum, ?_⟩
  · unfold RemoveMean
    rw [Average_eq values hne]
  · have hne' : values.map (fun value => value - values.sum / (values.length : ℚ)) ≠ [] := by
      intro h
      exact hne (List.map_eq_nil_iff.mp h)
    unfold RemoveMean
    rw [Average_eq _ hne', hsum]
    simp

/-- C27 on `{1, 2, 6}`: the average `3` is removed, the result `{-2, -1, 3}` sums to `0`. -/
theorem RemoveMean_zero_mean_witness :
    RemoveMean [1, 2, 6] = some [-2, -1, 3] ∧ RemoveMean [-2, -1, 3] = some [-2, -1, 3] := by
  obtain ⟨out, h1, h2, _, _, h5⟩ := RemoveMean_zero_mean [1, 2, 6] (by simp)
  have hout : out = [-2, -1, 3] := by
    rw [h2]
    norm_num
  rw [hout] at h1 h5
  exact ⟨h1, h5⟩

end VectorUtils

namespace MathFit

/-! ## CDiscreteFunction -/

/-- With the upper index at `n - 1` and a data point that is not below any X value, the
interval halving always keeps the upper half and ends at `n - 2`. -/
theorem FindXIndex_upper_end (f : CDiscreteFunction) (fXValue : ℚ)
    (hx : ∀ v ∈ f.mXData, v ≤ fXValue) (k : ℕ) :
    ∀ (iLower : ℕ), f.mXData.length - 1 - iLower = k → iLower + 1 ≤ f.mXData.length - 1 →
      f.FindXIndex fXValue iLower ((f.mXData.length : ℤ) - 1) = f.mXData.length - 2 := by
  induction k using Nat.strong_induction_on with
  | _ k ih =>
    intro iLower hk hlo
    have hnn : ¬ ((f.mXData.length : ℤ) - 1 < 0) := by omega
    rw [CDiscreteFunction.FindXIndex]
    simp only [if_neg hnn]
    by_cases hw : (f.mXData.length : ℤ) - 1 - (iLower : ℤ) ≤ 1
    · rw [dif_pos hw]
      omega
    · rw [dif_neg hw]
      have hmid : iLower + (((f.mXData.length : ℤ) - 1 - (iLower : ℤ)) / 2).toNat
          < f.mXData.length := by omega
      have hge : fXValue ≥ GetAt f.mXData
          (iLower + (((f.mXData.length : ℤ) - 1 - (iLower : ℤ)) / 2).toNat) := by
        unfold GetAt
        rw [List.getD_eq_getElem _ _ hmid]
        exact hx _ (List.getElem_mem hmid)
      rw [if_pos hge]
      exact ih _ (by omega) _ rfl (by omega)

/-- A negative `iUpper` stands for the last index `n - 1`. -/
theorem FindXIndex_default_upper (f : CDiscreteFunction) (fXValue : ℚ) (iLower : ℕ)
    (hn : 1 ≤ f.mXData.length) :
    f.FindXIndex fXValue iLower (-1) =
      f.FindXIndex fXValue iLower ((f.mXData.length : ℤ) - 1) := by
  have hnn : ¬ ((f.mXData.length : ℤ) - 1 < 0) := by omega
  conv_lhs => rw [CDiscreteFunction.FindXIndex]
  conv_rhs => rw [CDiscreteFunction.FindXIndex]
  simp only [if_neg hnn, if_pos (show (-1 : ℤ) < 0 by norm_num)]

/-- The call `FindXIndex(x)` with the default arguments, on at least two samples and a data
point that is not below any X value, returns `n - 2`: the last sample is never selected. -/
theorem FindXIndex_never_last (f : CDiscreteFunction) (fXValue : ℚ)
    (hn : 2 ≤ f.mXData.length) (hx : ∀ v ∈ f.mXData, v ≤ fXValue) :
    f.FindXIndex fXValue 0 (-1) = f.mXData.length - 2 := by
  rw [FindXIndex_default_upper f fXValue 0 (by omega)]
  exact FindXIndex_upper_end f fXValue hx _ 0 rfl (by omega)

/-- Between two indices `iLower < iUpper` with `X[iLower] <= x < X[iUpper]` the interval
halving returns an index `r` with `X[r] <= x < X[r + 1]`. -/
theorem FindXIndex_bracket (f : CDiscreteFunction) (fXValue : ℚ) (k : ℕ) :
    ∀ (iLower iUpper : ℕ), iUpper - iLower = k → iLower < iUpper →
      GetAt f.mXData iLower ≤ fXValue → fXValue < GetAt f.mXData iUpper →
      iLower ≤ f.FindXIndex fXValue iLower (iUpper : ℤ) ∧
        f.FindXIndex fXValue iLower (iUpper : ℤ) < iUpper ∧
        GetAt f.mXData (f.FindXIndex fXValue iLower (iUpper : ℤ)) ≤ fXValue ∧
        fXValue < GetAt f.mXData (f.FindXIndex fXValue iLower (iUpper : ℤ) + 1) := by
  induction k using Nat.strong_induction_on with
  | _ k ih =>
    intro iLower iUpper hk hlt hlo hhi
    have hnn : ¬ ((iUpper : ℤ) < 0) := by omega
    rw [CDiscreteFunction.FindXIndex]
    simp only [if_neg hnn]
    by_cases hw : (iUpper : ℤ) - (iLower : ℤ) ≤ 1
    · rw [dif_pos hw]
      have : iLower + 1 = iUpper := by omega
      exact ⟨le_refl _, hlt, hlo, by rw [this]; exact hhi⟩
    · rw [dif_neg hw]
      have hmid1 : iLower < iLower + (((iUpper : ℤ) - (iLower : ℤ)) / 2).toNat := by omega
      have hmid2 : iLower + (((iUpper : ℤ) - (iLower : ℤ)) / 2).toNat < iUpper := by omega
      by_cases hge : fXValue ≥ GetAt f.mXData
          (iLower + (((iUpper : ℤ) - (iLower : ℤ)) / 2).toNat)
      · rw [if_pos hge]
        obtain ⟨h1, h2, h3, h4⟩ := ih _ (by omega) _ iUpper rfl hmid2 hge hhi
        exact ⟨by omega, h2, h3, h4⟩
      · rw [if_neg hge]
        obtain ⟨h1, h2, h3, h4⟩ := ih _ (by omega) iLower _ rfl hmid1 hlo (not_le.mp hge)
        exact ⟨h1, by omega, h3, h4⟩

/-- Below the last sample the documented behaviour holds: for `X[0] <= x < X[n - 1]` the
call `FindXIndex(x)` returns an index `r` with `X[r] <= x < X[r + 1]`. -/
theorem FindXIndex_below_last (f : CDiscreteFunction) (fXValue : ℚ)
    (hn : 2 ≤ f.mXData.length) (hlo : GetAt f.mXData 0 ≤ fXValue)
    (hhi : fXValue < GetAt f.mXData (f.mXData.length - 1)) :
    f.FindXIndex fXValue 0 (-1) + 1 < f.mXData.length ∧
      GetAt f.mXData (f.FindXIndex fXValue 0 (-1)) ≤ fXValue ∧
      fXValue < GetAt f.mXData (f.FindXIndex fXValue 0 (-1) + 1) := by
  rw [FindXIndex_default_upper f fXValue 0 (by omega)]
  have hcast : ((f.mXData.length : ℤ) - 1) = ((f.mXData.length - 1 : ℕ) : ℤ) := by omega
  rw [hcast]
  obtain ⟨_, h2, h3, h4⟩ :=
    FindXIndex_bracket f fXValue _ 0 (f.mXData.length - 1) rfl (by omega) hlo hhi
  exact ⟨by omega, h3, h4⟩

/-- C15, the failing input: for `mXData = {0, 1}`, `mYData = {10, 20}` and `x = 1` the
highest index `i` with `mXData[i] <= x` is `1`, but `FindXIndex(1)` is `0` and `GetValue(1)`
is the value `10` of the first sample, not the value `20` of the last one. -/
theorem FindXIndex_misses_last_sample :
    GetAt (CDiscreteFunction.mk [0, 1] [10, 20]).mXData 1 ≤ 1 ∧
      (CDiscreteFunction.mk [0, 1] [10, 20]).FindXIndex 1 0 (-1) = 0 ∧
      (CDiscreteFunction.mk [0, 1] [10, 20]).GetValue 1 = 10 := by
  have h : (CDiscreteFunction.mk [0, 1] [10, 20]).FindXIndex 1 0 (-1) = 0 :=
    FindXIndex_never_last (CDiscreteFunction.mk [0, 1] [10, 20]) 1 (by simp) (by simp)
  refine ⟨by simp [GetAt], h, ?_⟩
  simp only [CDiscreteFunction.GetValue, h]
  simp [GetAt]

end MathFit

namespace novac

/-! ## Settings and correspondences -/

/-- C16: the defaults of `RansacWavelengthCalibrationSettings` are order `3`, `500000`
iterations, sample size `4`, inlier limit `0.2`, pixel distance `150` and `refine = true`;
the sample size is the order plus one. -/
theorem RansacWavelengthCalibrationSettings_defaults :
    ({} : RansacWavelengthCalibrationSettings).modelPolynomialOrder = 3 ∧
      ({} : RansacWavelengthCalibrationSettings).numberOfRansacIterations = 500000 ∧
      ({} : RansacWavelengthCalibrationSettings).sampleSize = 4 ∧
      ({} : RansacWavelengthCalibrationSettings).inlierLimitInWavelength = 0.2 ∧
      ({} : RansacWavelengthCalibrationSettings).maximumPixelDistanceForPossibleCorrespondence
        = 150 ∧
      ({} : RansacWavelengthCalibrationSettings).refine = true ∧
      ({} : RansacWavelengthCalibrationSettings).sampleSize =
        ({} : RansacWavelengthCalibrationSettings).modelPolynomialOrder + 1 :=
  ⟨rfl, rfl, rfl, rfl, rfl, rfl, rfl⟩

/-- C17: the defaults of `CorrespondenceSelectionSettings` are a region of `20` pixels, the
fraction `0.2`, and the pixel range from `650` to `2100`, which satisfies
`measuredPixelStart < measuredPixelStop`. -/
theorem CorrespondenceSelectionSettings_defaults :
    ({} : CorrespondenceSelectionSettings).pixelRegionSizeForCorrespondenceErrorMeasurement
        = 20 ∧
      ({} : CorrespondenceSelectionSettings).percentageOfCorrespondencesToSelect = 0.2 ∧
      ({} : CorrespondenceSelectionSettings).measuredPixelStart = 650 ∧
      ({} : CorrespondenceSelectionSettings).measuredPixelStop = 2100 ∧
      ({} : CorrespondenceSelectionSettings).measuredPixelStart <
        ({} : CorrespondenceSelectionSettings).measuredPixelStop :=
  ⟨rfl, rfl, rfl, rfl, by decide⟩

/-- C18: `Correspondence()` has all five members at `0`; `Correspondence(m, t, e)` stores
the two indices and the error and leaves the two values at `0`. -/
theorem Correspondence_constructors (m t : ℕ) (e : ℚ) :
    Correspondence.create.error = 0 ∧
      Correspondence.create.measuredIdx = 0 ∧ Correspondence.create.theoreticalIdx = 0 ∧
      Correspondence.create.measuredValue = 0 ∧ Correspondence.create.theoreticalValue = 0 ∧
      (Correspondence.create3 m t e).measuredIdx = m ∧
      (Correspondence.create3 m t e).theoreticalIdx = t ∧
      (Correspondence.create3 m t e).error = e ∧
      (Correspondence.create3 m t e).measuredValue = 0 ∧
      (Correspondence.create3 m t e).theoreticalValue = 0 := by
  refine ⟨?_, rfl, rfl, ?_, ?_, rfl, rfl, rfl, ?_, ?_⟩ <;>
    norm_num [Correspondence.create, Correspondence.create3]

/-! ## PolynomialValueAt -/

/-- C19: `PolynomialValueAt(c, x)` is the sum over `i` of `c[i] * x^i`, for every
coefficient vector and every `x`; on the empty coefficient vector it is `0`. -/
theorem PolynomialValueAt_eq_sum (coefficients : List ℚ) (x : ℚ) :
    PolynomialValueAt coefficients x =
        ∑ i in Finset.range coefficients.length, coefficients.getD i 0 * x ^ i ∧
      PolynomialValueAt [] x = 0 := by
  refine ⟨?_, rfl⟩
  induction coefficients with
  | nil => simp [PolynomialValueAt]
  | cons c rest ih =>
    rw [PolynomialValueAt, ih, List.length_cons, Finset.sum_range_succ', Finset.mul_sum]
    simp only [List.getD_cons_succ, List.getD_cons_zero, pow_zero, mul_one]
    rw [add_comm]
    congr 1
    refine Finset.sum_congr rfl ?_
    intro i _
    ring

/-! ## DoWavelengthCalibration -/

/-- The result before any model is found has an all-false mask over the input list. -/
theorem InitialResult_mask_consistent (settings : RansacWavelengthCalibrationSettings)
    (correspondences : List Correspondence) :
    (InitialResult settings correspondences).correspondenceIsInlier.count true =
        (InitialResult settings correspondences).highestNumberOfInliers ∧
      (InitialResult settings correspondences).correspondenceIsInlier.length =
        correspondences.length ∧
      (InitialResult settings correspondences).numberOfPossibleCorrelations =
        correspondences.length := by
  refine ⟨?_, ?_, rfl⟩
  · simp [InitialResult, List.count_replicate]
  · simp [InitialResult]

/-- One iteration keeps the mask, the inlier count and the total consistent: an update
stores a mask over all the correspondences together with its own count of `true`. -/
theorem RansacIteration_mask_consistent (settings : RansacWavelengthCalibrationSettings)
    (collaborators : RansacCollaborators) (correspondences : List Correspondence)
    (sample : List ℕ) (best : RansacWavelengthCalibrationResult)
    (h : best.correspondenceIsInlier.count true = best.highestNumberOfInliers ∧
      best.correspondenceIsInlier.length = correspondences.length ∧
      best.numberOfPossibleCorrelations = correspondences.length) :
    (RansacIteration settings collaborators correspondences sample
          best).correspondenceIsInlier.count true =
        (RansacIteration settings collaborators correspondences sample
          best).highestNumberOfInliers ∧
      (RansacIteration settings collaborators correspondences sample
          best).correspondenceIsInlier.length = correspondences.length ∧
      (RansacIteration settings collaborators correspondences sample
          best).numberOfPossibleCorrelations = correspondences.length := by
  unfold RansacIteration
  simp only
  split
  · exact h
  · split
    · exact ⟨rfl, by simp, h.2.2⟩
    · exact h

/-- The loop keeps the mask, the inlier count and the total consistent. -/
theorem RansacLoop_mask_consistent (settings : RansacWavelengthCalibrationSettings)
    (collaborators : RansacCollaborators) (correspondences : List Correspondence)
    (iterations : ℕ) :
    ∀ (generator : ℕ) (best : RansacWavelengthCalibrationResult),
      (best.correspondenceIsInlier.count true = best.highestNumberOfInliers ∧
        best.correspondenceIsInlier.length = correspondences.length ∧
        best.numberOfPossibleCorrelations = correspondences.length) →
      ((RansacLoop settings collaborators correspondences iterations generator
            best).correspondenceIsInlier.count true =
          (RansacLoop settings collaborators correspondences iterations generator
            best).highestNumberOfInliers ∧
        (RansacLoop settings collaborators correspondences iterations generator
            best).correspondenceIsInlier.length = correspondences.length ∧
        (RansacLoop settings collaborators correspondences iterations generator
            best).numberOfPossibleCorrelations = correspondences.length) := by
  induction iterations with
  | zero =>
    intro generator best h
    exact h
  | succ n ih =>
    intro generator best h
    rw [RansacLoop]
    split
    · exact h
    · exact ih _ _ (RansacIteration_mask_consistent settings collaborators correspondences
        _ best h)

/-- C20: in every result of `DoWavelengthCalibration(correspondences)` the number of `true`
entries of `correspondenceIsInlier` is `highestNumberOfInliers`, and
`correspondenceIsInlier.size() = numberOfPossibleCorrelations = correspondences.size()`. -/
theorem DoWavelengthCalibration_mask_consistent
    (settings : RansacWavelengthCalibrationSettings) (collaborators : RansacCollaborators)
    (seed : ℕ) (correspondences : List Correspondence) :
    (DoWavelengthCalibration settings collaborators seed
          correspondences).correspondenceIsInlier.count true =
        (DoWavelengthCalibration settings collaborators seed
          correspondences).highestNumberOfInliers ∧
      (DoWavelengthCalibration settings collaborators seed
          correspondences).correspondenceIsInlier.length =
        (DoWavelengthCalibration settings collaborators seed
          correspondences).numberOfPossibleCorrelations ∧
      (DoWavelengthCalibration settings collaborators seed
          correspondences).numberOfPossibleCorrelations = correspondences.length := by
  have key :
      (DoWavelengthCalibration settings collaborators seed
            correspondences).correspondenceIsInlier.count true =
          (DoWavelengthCalibration settings collaborators seed
            correspondences).highestNumberOfInliers ∧
        (DoWavelengthCalibration settings collaborators seed
            correspondences).correspondenceIsInlier.length = correspondences.length ∧
        (DoWavelengthCalibration settings collaborators seed
            correspondences).numberOfPossibleCorrelations = correspondences.length := by
    unfold DoWavelengthCalibration
    split
    · exact InitialResult_mask_consistent settings correspondences
    · exact RansacLoop_mask_consistent settings collaborators correspondences _ _ _
        (InitialResult_mask_consistent settings correspondences)
  exact ⟨key.1, key.2.1.trans key.2.2.symm, key.2.2⟩

/-! ## Degenerate input and the update rule -/

/-- C21: with fewer correspondences than `sampleSize`, `DoWavelengthCalibration` returns a
result (nothing is thrown) with `highestNumberOfInliers = 0` and `smallestError` at the
sentinel, the maximum double value. -/
theorem DoWavelengthCalibration_too_few_correspondences
    (settings : RansacWavelengthCalibrationSettings) (collaborators : RansacCollaborators)
    (seed : ℕ) (correspondences : List Correspondence)
    (h : correspondences.length < settings.sampleSize) :
    DoWavelengthCalibration settings collaborators seed correspondences =
        InitialResult settings correspondences ∧
      (DoWavelengthCalibration settings collaborators seed
        correspondences).highestNumberOfInliers = 0 ∧
      (DoWavelengthCalibration settings collaborators seed
        correspondences).smallestError = DBL_MAX := by
  have h0 : DoWavelengthCalibration settings collaborators seed correspondences =
      InitialResult settings correspondences := by
    unfold DoWavelengthCalibration
    rw [if_pos h]
  rw [h0]
  exact ⟨rfl, rfl, rfl⟩

/-- C21 with the default settings (`sampleSize = 4`) and three correspondences. -/
theorem DoWavelengthCalibration_too_few_correspondences_witness :
    (DoWavelengthCalibration {} ⟨fun _ _ _ => some [0, 1], fun g _ _ => ([0, 1, 2, 3], g + 1)⟩
        7 [Correspondence.create, Correspondence.create,
          Correspondence.create]).highestNumberOfInliers = 0 ∧
      (DoWavelengthCalibration {} ⟨fun _ _ _ => some [0, 1], fun g _ _ => ([0, 1, 2, 3], g + 1)⟩
        7 [Correspondence.create, Correspondence.create,
          Correspondence.create]).smallestError = DBL_MAX :=
  (DoWavelengthCalibration_too_few_correspondences {}
    ⟨fun _ _ _ => some [0, 1], fun g _ _ => ([0, 1, 2, 3], g + 1)⟩ 7
    [Correspondence.create, Correspondence.create, Correspondence.create]
    (by decide)).2

/-- One iteration never lowers the retained inlier count. -/
theorem RansacIteration_inliers_mono (settings : RansacWavelengthCalibrationSettings)
    (collaborators : RansacCollaborators) (correspondences : List Correspondence)
    (sample : List ℕ) (best : RansacWavelengthCalibrationResult) :
    best.highestNumberOfInliers ≤
      (RansacIteration settings collaborators correspondences sample
        best).highestNumberOfInliers := by
  unfold RansacIteration
  simp only
  split
  · exact le_refl _
  · split
    · rename_i hrep
      simp only [ReplacesBest, decide_eq_true_eq] at hrep
      rcases hrep with h | h
      · exact le_of_lt h
      · exact le_of_eq h.1.symm
    · exact le_refl _

/-- The loop never lowers the retained inlier count. -/
theorem RansacLoop_inliers_ge (settings : RansacWavelengthCalibrationSettings)
    (collaborators : RansacCollaborators) (correspondences : List Correspondence)
    (iterations : ℕ) :
    ∀ (generator : ℕ) (best : RansacWavelengthCalibrationResult),
      best.highestNumberOfInliers ≤
        (RansacLoop settings collaborators correspondences iterations generator
          best).highestNumberOfInliers := by
  induction iterations with
  | zero =>
    intro generator best
    exact le_refl _
  | succ n ih =>
    intro generator best
    rw [RansacLoop]
    split
    · exact le_refl _
    · exact le_trans
        (RansacIteration_inliers_mono settings collaborators correspondences _ best)
        (ih _ _)

/-- The retained inlier count after `k + 1` iterations is not below the one after `k`
iterations of the same run. -/
theorem RansacLoop_inliers_step (settings : RansacWavelengthCalibrationSettings)
    (collaborators : RansacCollaborators) (correspondences : List Correspondence)
    (iterations : ℕ) :
    ∀ (generator : ℕ) (best : RansacWavelengthCalibrationResult),
      (RansacLoop settings collaborators correspondences iterations generator
          best).highestNumberOfInliers ≤
        (RansacLoop settings collaborators correspondences (iterations + 1) generator
          best).highestNumberOfInliers := by
  induction iterations with
  | zero =>
    intro generator best
    exact RansacLoop_inliers_ge settings collaborators correspondences 1 generator best
  | succ n ih =>
    intro generator best
    conv_lhs => rw [RansacLoop]
    conv_rhs => rw [RansacLoop]
    split
    · exact le_refl _
    · exact ih _ _

/-- C22: in an iteration whose fit succeeds with `coefficients`, the retained best model is
replaced by the new one when the new inlier count is strictly above the retained count, or
equal to it with a strictly lower residual error, and it is kept otherwise; a degenerate
fit keeps it. The retained inlier count never decreases, neither over one iteration nor
from `k` to `k + 1` iterations of a run. -/
theorem RansacIteration_update_rule (settings : RansacWavelengthCalibrationSettings)
    (collaborators : RansacCollaborators) (correspondences : List Correspondence)
    (sample : List ℕ) (best : RansacWavelengthCalibrationResult) :
    (∀ (coefficients : List ℚ),
      collaborators.fit
          ((sample.filterMap (fun i => correspondences[i]?)).map (fun c => c.measuredValue))
          ((sample.filterMap (fun i => correspondences[i]?)).map (fun c => c.theoreticalValue))
          settings.modelPolynomialOrder = some coefficients →
        (((correspondences.map (IsInlier settings coefficients)).count true
              > best.highestNumberOfInliers ∨
            ((correspondences.map (IsInlier settings coefficients)).count true
                = best.highestNumberOfInliers ∧
              ResidualError settings coefficients correspondences < best.smallestError)) →
          RansacIteration settings collaborators correspondences sample best =
            { best with
              bestFittingModelCoefficients := coefficients
              highestNumberOfInliers :=
                (correspondences.map (IsInlier settings coefficients)).count true
              correspondenceIsInlier := correspondences.map (IsInlier settings coefficients)
              smallestError := ResidualError settings coefficients correspondences }) ∧
        (¬ ((correspondences.map (IsInlier settings coefficients)).count true
              > best.highestNumberOfInliers ∨
            ((correspondences.map (IsInlier settings coefficients)).count true
                = best.highestNumberOfInliers ∧
              ResidualError settings coefficients correspondences < best.smallestError)) →
          RansacIteration settings collaborators correspondences sample best = best)) ∧
    (collaborators.fit
          ((sample.filterMap (fun i => correspondences[i]?)).map (fun c => c.measuredValue))
          ((sample.filterMap (fun i => correspondences[i]?)).map (fun c => c.theoreticalValue))
          settings.modelPolynomialOrder = none →
        RansacIteration settings collaborators correspondences sample best = best) ∧
    best.highestNumberOfInliers ≤
      (RansacIteration settings collaborators correspondences sample
        best).highestNumberOfInliers ∧
    (∀ (iterations generator : ℕ),
      (RansacLoop settings collaborators correspondences iterations generator
          best).highestNumberOfInliers ≤
        (RansacLoop settings collaborators correspondences (iterations + 1) generator
          best).highestNumberOfInliers) := by
  refine ⟨?_, ?_, RansacIteration_inliers_mono settings collaborators correspondences sample
    best, fun iterations generator =>
      RansacLoop_inliers_step settings collaborators correspondences iterations generator
        best⟩
  · intro coefficients hfit
    constructor
    · intro hcond
      unfold RansacIteration
      simp only [hfit]
      rw [if_pos (by simp only [ReplacesBest, decide_eq_true_eq]; exact hcond)]
    · intro hcond
      unfold RansacIteration
      simp only [hfit]
      rw [if_neg (by simp only [ReplacesBest, decide_eq_true_eq]; exact hcond)]
  · intro hfit
    unfold RansacIteration
    simp only [hfit]

/-- C22 on one correspondence `(1, 1)` and the fitted line `y = x`: the new model has one
inlier, the retained one has none, and the new model is retained. -/
theorem RansacIteration_update_rule_witness :
    (RansacIteration {} ⟨fun _ _ _ => some [0, 1], fun g _ _ => ([0], g + 1)⟩
        [{ measuredValue := 1, theoreticalValue := 1 }] [0]
        (InitialResult {} [{ measuredValue := 1, theoreticalValue := 1 }])).highestNumberOfInliers
      = 1 := by
  have h := ((RansacIteration_update_rule {}
    ⟨fun _ _ _ => some [0, 1], fun g _ _ => ([0], g + 1)⟩
    [{ measuredValue := 1, theoreticalValue := 1 }] [0]
    (InitialResult {} [{ measuredValue := 1, theoreticalValue := 1 }])).1 [0, 1] rfl).1
  have hin : IsInlier {} [0, 1] { measuredValue := 1, theoreticalValue := 1 } = true := by
    simp only [IsInlier, PolynomialValueAt, decide_eq_true_eq]
    norm_num
  have hcount : ([({ measuredValue := 1, theoreticalValue := 1 } : Correspondence)].map
      (IsInlier {} [0, 1])).count true = 1 := by
    simp [hin]
  rw [h (Or.inl (by rw [hcount]; simp [InitialResult]))]
  exact hcount

/-! ## Dependence on the random source -/

/-- An iteration uses the collaborators only through the fit primitive. -/
theorem RansacIteration_congr_fit (settings : RansacWavelengthCalibrationSettings)
    (c₁ c₂ : RansacCollaborators) (hfit : c₁.fit = c₂.fit)
    (correspondences : List Correspondence) (sample : List ℕ)
    (best : RansacWavelengthCalibrationResult) :
    RansacIteration settings c₁ correspondences sample best =
      RansacIteration settings c₂ correspondences sample best := by
  unfold RansacIteration
  rw [hfit]

/-- The loop depends on the random source only through the samples it delivers: two runs
with the same fit primitive whose random sources deliver the same samples end with the
same result. -/
theorem RansacLoop_congr_samples (settings : RansacWavelengthCalibrationSettings)
    (c₁ c₂ : RansacCollaborators) (hfit : c₁.fit = c₂.fit)
    (correspondences : List Correspondence) (iterations : ℕ) :
    ∀ (g₁ g₂ : ℕ) (best : RansacWavelengthCalibrationResult),
      DrawnSamples c₁ correspondences.length settings.sampleSize iterations g₁ =
        DrawnSamples c₂ correspondences.length settings.sampleSize iterations g₂ →
      RansacLoop settings c₁ correspondences iterations g₁ best =
        RansacLoop settings c₂ correspondences iterations g₂ best := by
  induction iterations with
  | zero =>
    intro g₁ g₂ best _
    rfl
  | succ n ih =>
    intro g₁ g₂ best h
    simp only [DrawnSamples, List.cons.injEq] at h
    conv_lhs => rw [RansacLoop]
    conv_rhs => rw [RansacLoop]
    by_cases hexit : best.highestNumberOfInliers = correspondences.length
    · rw [if_pos hexit, if_pos hexit]
    · rw [if_neg hexit, if_neg hexit]
      simp only
      rw [h.1, RansacIteration_congr_fit settings c₁ c₂ hfit]
      exact ih _ _ _ h.2

end novac
